import Mathlib

set_option maxHeartbeats 1000000

namespace Souffle

/-- Binary comparison operators of souffle/BinaryConstraintOps.h, restricted to the
operators that occur in the modelled fragment. -/
inductive BinaryConstraintOp
  | EQ | NE | LT | LE | GT | GE
  deriving DecidableEq, Repr

/-- Modelled from the spec: scalar value expressions of the RAM representation —
tuple-element reads, constants, and the distinguished "undefined" sentinel
(ram/Expression.h is not under src/). -/
inductive RamExpression
  | UndefValue
  | Number (n : Int)
  | TupleElement (tid : Nat) (element : Nat)
  deriving DecidableEq, Repr

/-- Modelled from the spec: boolean conditions of the RAM representation — a binary
constraint references a comparison operator and two expressions; a conjunction
references two conditions (ram/Condition.h is not under src/). -/
inductive RamCondition
  | Conjunction (lhs rhs : RamCondition)
  | Constraint (op : BinaryConstraintOp) (lhs rhs : RamExpression)
  deriving DecidableEq, Repr

/-- Modelled from the spec: a lightweight named handle (name, arity) to a declared
relation; cloning it yields a structurally identical handle. -/
structure RamRelationReference where
  name : String
  arity : Nat
  deriving DecidableEq, Repr

/-- isRamUndefValue (ram/Expression.h): tests for the undefined sentinel. -/
def isRamUndefValue : RamExpression → Bool
  | .UndefValue => true
  | _ => false

/-- A RamPattern is a pair of per-attribute bound vectors: lower bounds and upper
bounds, each slot an expression or the undefined sentinel. -/
abbrev RamPattern := List RamExpression × List RamExpression

/-- Aggregation functions (shared by both eras of the operation hierarchy). -/
inductive AggregateFunction
  | MAX | MIN | COUNT | SUM
  deriving DecidableEq, Repr

/-- Modelled from the spec: the sealed set of RAM operation variants used by the
index-to-filter transform of src/unnamed/part_000 (the current-era ram/Operation.h
is not under src/). `UnknownIndexOperation` stands for a RamIndexOperation subclass
outside the closed set known to the transform (the open C++ class hierarchy admits
such variants; both rewriters guard against them with a fatal error). -/
inductive RamOperation
  | Scan (rel : RamRelationReference) (tid : Nat) (nested : RamOperation) (profile : String)
  | ParallelScan (rel : RamRelationReference) (tid : Nat) (nested : RamOperation) (profile : String)
  | IndexScan (rel : RamRelationReference) (tid : Nat) (pattern : RamPattern)
      (nested : RamOperation) (profile : String)
  | ParallelIndexScan (rel : RamRelationReference) (tid : Nat) (pattern : RamPattern)
      (nested : RamOperation) (profile : String)
  | Choice (rel : RamRelationReference) (tid : Nat) (cond : RamCondition)
      (nested : RamOperation) (profile : String)
  | IndexChoice (rel : RamRelationReference) (tid : Nat) (cond : RamCondition)
      (pattern : RamPattern) (nested : RamOperation) (profile : String)
  | Aggregate (nested : RamOperation) (fn : AggregateFunction) (rel : RamRelationReference)
      (expr : RamExpression) (cond : RamCondition) (tid : Nat)
  | IndexAggregate (nested : RamOperation) (fn : AggregateFunction)
      (rel : RamRelationReference) (expr : RamExpression) (cond : RamCondition)
      (pattern : RamPattern) (tid : Nat)
  | Filter (cond : RamCondition) (nested : RamOperation)
  | Lookup (nested : RamOperation) (refLevel refPos arity tid : Nat)
  | Project (rel : RamRelationReference) (vals : List RamExpression)
  | SubroutineReturn (vals : List RamExpression)
  | UnknownIndexOperation (rel : RamRelationReference) (tid : Nat) (pattern : RamPattern)
      (nested : RamOperation) (profile : String)
  deriving DecidableEq, Repr

/-- A program is the ordered sequence of query root operations reached by
visitDepthFirst over RamQuery nodes. -/
abbrev RamProgram := List RamOperation

/-- The lower bound of a range pattern at attribute position `i`. Out-of-range access
is a precondition violation in the C++ (spec §7); the model totalises it with the
undefined sentinel. -/
def lowerBound (pat : RamPattern) (i : Nat) : RamExpression :=
  pat.1.getD i .UndefValue

/-- The upper bound of a range pattern at attribute position `i`. -/
def upperBound (pat : RamPattern) (i : Nat) : RamExpression :=
  pat.2.getD i .UndefValue

/-- Modelled from the spec: the search signature of an index operation is the set of
attribute positions actually constrained at the call site (glossary), listed in
increasing position order (the analysis class computing it is not under src/). -/
def searchSignature (pat : RamPattern) : List Nat :=
  (List.range pat.1.length).filter fun i =>
    !isRamUndefValue (lowerBound pat i) || !isRamUndefValue (upperBound pat i)

/-- Modelled from the spec: the index-selection analysis, consumed as a black box
that returns, for a relation and a search signature, the attribute positions the
chosen index cannot cover — "the attributes to discharge" (MinIndexSelection is not
under src/). The transform iterates the returned positions in list order. -/
structure IndexAnalysis where
  attributesToDischarge : RamRelationReference → List Nat → List Nat

/-- The addCondition helper of transformIndexToFilter: conjoin a new condition onto
an optional accumulated condition, keeping the accumulated condition on the left. -/
def addCondition : Option RamCondition → RamCondition → Option RamCondition
  | none, c => some c
  | some c0, c => some (.Conjunction c0 c)

/-- State threaded through the discharge loop of indexToFilterRewriter: the
synthesized condition, the working copy of the pattern, and the changed flag. -/
structure DischargeState where
  condition : Option RamCondition
  updatedPattern : RamPattern
  changed : Bool
  deriving Repr

/-- One iteration of the discharge loop (part_000 lines 68–91): set the changed
flag, synthesize a ≥ constraint from a defined lower bound and a ≤ constraint from a
defined upper bound (reading the operation's original pattern), and reset both
bounds in the working pattern. -/
def dischargeAttribute (tid : Nat) (pat : RamPattern) (st : DischargeState) (i : Nat) :
    DischargeState :=
  let cond1 :=
    if !isRamUndefValue (lowerBound pat i) then
      addCondition st.condition
        (.Constraint .GE (.TupleElement tid i) (lowerBound pat i))
    else st.condition
  let cond2 :=
    if !isRamUndefValue (upperBound pat i) then
      addCondition cond1
        (.Constraint .LE (.TupleElement tid i) (upperBound pat i))
    else cond1
  ⟨cond2, (st.updatedPattern.1.set i .UndefValue, st.updatedPattern.2.set i .UndefValue), true⟩

/-- The discharge loop over all attributes to discharge, starting from no condition,
a clone of the operation's pattern, and an unset changed flag. -/
def dischargeLoop (tid : Nat) (pat : RamPattern) (d : List Nat) : DischargeState :=
  d.foldl (dischargeAttribute tid pat) ⟨none, pat, false⟩

/-- indexToFilterRewriter (part_000 lines 51–130): parent-first rewrite of one
operation subtree. For an index operation, run the discharge loop; if a condition
was synthesized, replace the node by the same variant with the narrowed pattern and
an inner Filter wrapping the nested child (for IndexAggregate, strengthen the
aggregate's own condition instead), or fail fatally on an unknown index variant;
then recurse into the (possibly new) node's children. Returns the rewritten subtree
together with the contribution to the captured `changed` flag; `.error` models
`fatal`. -/
def indexToFilterOp (idx : IndexAnalysis) : RamOperation → Except String (RamOperation × Bool)
  | .Scan r tid nested prof => do
      let (n, ch) ← indexToFilterOp idx nested
      pure (.Scan r tid n prof, ch)
  | .ParallelScan r tid nested prof => do
      let (n, ch) ← indexToFilterOp idx nested
      pure (.ParallelScan r tid n prof, ch)
  | .Choice r tid cond nested prof => do
      let (n, ch) ← indexToFilterOp idx nested
      pure (.Choice r tid cond n prof, ch)
  | .Aggregate nested fn r e cond tid => do
      let (n, ch) ← indexToFilterOp idx nested
      pure (.Aggregate n fn r e cond tid, ch)
  | .Filter cond nested => do
      let (n, ch) ← indexToFilterOp idx nested
      pure (.Filter cond n, ch)
  | .Lookup nested rl rp ar tid => do
      let (n, ch) ← indexToFilterOp idx nested
      pure (.Lookup n rl rp ar tid, ch)
  | .Project r vs => pure (.Project r vs, false)
  | .SubroutineReturn vs => pure (.SubroutineReturn vs, false)
  | .IndexScan r tid pat nested prof =>
      let d := idx.attributesToDischarge r (searchSignature pat)
      let st := dischargeLoop tid pat d
      match st.condition with
      | some c => do
          let (n, ch) ← indexToFilterOp idx nested
          pure (.IndexScan r tid st.updatedPattern (.Filter c n) prof, st.changed || ch)
      | none => do
          let (n, ch) ← indexToFilterOp idx nested
          pure (.IndexScan r tid pat n prof, st.changed || ch)
  | .ParallelIndexScan r tid pat nested prof =>
      let d := idx.attributesToDischarge r (searchSignature pat)
      let st := dischargeLoop tid pat d
      match st.condition with
      | some c => do
          let (n, ch) ← indexToFilterOp idx nested
          pure (.ParallelIndexScan r tid st.updatedPattern (.Filter c n) prof, st.changed || ch)
      | none => do
          let (n, ch) ← indexToFilterOp idx nested
          pure (.ParallelIndexScan r tid pat n prof, st.changed || ch)
  | .IndexChoice r tid cond0 pat nested prof =>
      let d := idx.attributesToDischarge r (searchSignature pat)
      let st := dischargeLoop tid pat d
      match st.condition with
      | some c => do
          let (n, ch) ← indexToFilterOp idx nested
          pure (.IndexChoice r tid cond0 st.updatedPattern (.Filter c n) prof, st.changed || ch)
      | none => do
          let (n, ch) ← indexToFilterOp idx nested
          pure (.IndexChoice r tid cond0 pat n prof, st.changed || ch)
  | .IndexAggregate nested fn r e cond0 pat tid =>
      let d := idx.attributesToDischarge r (searchSignature pat)
      let st := dischargeLoop tid pat d
      match st.condition with
      | some c => do
          let (n, ch) ← indexToFilterOp idx nested
          pure (.IndexAggregate n fn r e (.Conjunction cond0 c) st.updatedPattern tid,
            st.changed || ch)
      | none => do
          let (n, ch) ← indexToFilterOp idx nested
          pure (.IndexAggregate n fn r e cond0 pat tid, st.changed || ch)
  | .UnknownIndexOperation r tid pat nested prof =>
      let d := idx.attributesToDischarge r (searchSignature pat)
      let st := dischargeLoop tid pat d
      match st.condition with
      | some _ =>
          .error "New RamIndexOperation subclass found but not supported while making index."
      | none => do
          let (n, ch) ← indexToFilterOp idx nested
          pure (.UnknownIndexOperation r tid pat n prof, st.changed || ch)

/-- The loop of removeEmptyIndexRewriter (part_000 lines 143–151): true iff some
attribute position has a defined lower or upper bound. -/
def foundRealIndexableOperation (pat : RamPattern) : Bool :=
  (List.range pat.1.length).any fun i =>
    !(isRamUndefValue (lowerBound pat i) && isRamUndefValue (upperBound pat i))

/-- removeEmptyIndexRewriter (part_000 lines 135–181): parent-first rewrite that
downgrades an index operation whose pattern carries no defined bound to its
non-indexed sibling variant, fails fatally on an unknown index variant, and recurses
into the (possibly new) node's children. -/
def removeEmptyIndexOp : RamOperation → Except String RamOperation
  | .Scan r tid nested prof => do
      let n ← removeEmptyIndexOp nested
      pure (.Scan r tid n prof)
  | .ParallelScan r tid nested prof => do
      let n ← removeEmptyIndexOp nested
      pure (.ParallelScan r tid n prof)
  | .Choice r tid cond nested prof => do
      let n ← removeEmptyIndexOp nested
      pure (.Choice r tid cond n prof)
  | .Aggregate nested fn r e cond tid => do
      let n ← removeEmptyIndexOp nested
      pure (.Aggregate n fn r e cond tid)
  | .Filter cond nested => do
      let n ← removeEmptyIndexOp nested
      pure (.Filter cond n)
  | .Lookup nested rl rp ar tid => do
      let n ← removeEmptyIndexOp nested
      pure (.Lookup n rl rp ar tid)
  | .Project r vs => pure (.Project r vs)
  | .SubroutineReturn vs => pure (.SubroutineReturn vs)
  | .IndexScan r tid pat nested prof => do
      let n ← removeEmptyIndexOp nested
      if foundRealIndexableOperation pat then
        pure (.IndexScan r tid pat n prof)
      else
        pure (.Scan r tid n prof)
  | .ParallelIndexScan r tid pat nested prof => do
      let n ← removeEmptyIndexOp nested
      if foundRealIndexableOperation pat then
        pure (.ParallelIndexScan r tid pat n prof)
      else
        pure (.ParallelScan r tid n prof)
  | .IndexChoice r tid cond pat nested prof => do
      let n ← removeEmptyIndexOp nested
      if foundRealIndexableOperation pat then
        pure (.IndexChoice r tid cond pat n prof)
      else
        pure (.Choice r tid cond n prof)
  | .IndexAggregate nested fn r e cond pat tid => do
      let n ← removeEmptyIndexOp nested
      if foundRealIndexableOperation pat then
        pure (.IndexAggregate n fn r e cond pat tid)
      else
        pure (.Aggregate n fn r e cond tid)
  | .UnknownIndexOperation r tid pat nested prof =>
      if foundRealIndexableOperation pat then do
        let n ← removeEmptyIndexOp nested
        pure (.UnknownIndexOperation r tid pat n prof)
      else
        .error "New RamIndexOperation subclass found but not supported while transforming index."

/-- IndexedInequalityTransformer::transformIndexToFilter (part_000 lines 37–185):
run the index-to-filter pass over every query, then the empty-index-removal pass,
and report the captured changed flag (set only inside the first pass's discharge
loop). -/
def transformIndexToFilter (idx : IndexAnalysis) (p : RamProgram) :
    Except String (RamProgram × Bool) := do
  let firstPass ← p.mapM (indexToFilterOp idx)
  let p1 := firstPass.map Prod.fst
  let changed := firstPass.any Prod.snd
  let p2 ← p1.mapM removeEmptyIndexOp
  pure (p2, changed)

/-- The operation node itself followed by all operations nested below it. -/
def subOps : RamOperation → List RamOperation
  | op@(.Scan _ _ n _) => op :: subOps n
  | op@(.ParallelScan _ _ n _) => op :: subOps n
  | op@(.IndexScan _ _ _ n _) => op :: subOps n
  | op@(.ParallelIndexScan _ _ _ n _) => op :: subOps n
  | op@(.Choice _ _ _ n _) => op :: subOps n
  | op@(.IndexChoice _ _ _ _ n _) => op :: subOps n
  | op@(.Aggregate n _ _ _ _ _) => op :: subOps n
  | op@(.IndexAggregate n _ _ _ _ _ _) => op :: subOps n
  | op@(.Filter _ n) => op :: subOps n
  | op@(.Lookup n _ _ _ _) => op :: subOps n
  | op@(.Project _ _) => [op]
  | op@(.SubroutineReturn _) => [op]
  | op@(.UnknownIndexOperation _ _ _ n _) => op :: subOps n

/-- Both bounds of the pattern are undefined at position `i`. -/
def undefAt (pat : RamPattern) (i : Nat) : Bool :=
  isRamUndefValue (lowerBound pat i) && isRamUndefValue (upperBound pat i)

/-- Every attribute position of the pattern has both bounds undefined. -/
def allUndefPattern (pat : RamPattern) : Prop :=
  ∀ i < pat.1.length, undefAt pat i = true

instance (pat : RamPattern) : Decidable (allUndefPattern pat) := by
  unfold allUndefPattern; infer_instance

/-- An operation of one of the four index-bearing variants named by the transform
whose range pattern has both bounds undefined at every attribute position. -/
def isEmptyIndexVariant : RamOperation → Prop
  | .IndexScan _ _ pat _ _ => allUndefPattern pat
  | .ParallelIndexScan _ _ pat _ _ => allUndefPattern pat
  | .IndexChoice _ _ _ pat _ _ => allUndefPattern pat
  | .IndexAggregate _ _ _ _ _ pat _ => allUndefPattern pat
  | _ => False

/-- The constraints the spec describes for a discharge set: for each position in
list order, a ≥ constraint for a defined lower bound followed by a ≤ constraint for
a defined upper bound. -/
def dischargedConstraints (tid : Nat) (pat : RamPattern) (d : List Nat) :
    List RamCondition :=
  d.foldr
    (fun i rest =>
      (if !isRamUndefValue (lowerBound pat i) then
        [RamCondition.Constraint .GE (.TupleElement tid i) (lowerBound pat i)]
      else []) ++
      (if !isRamUndefValue (upperBound pat i) then
        [RamCondition.Constraint .LE (.TupleElement tid i) (upperBound pat i)]
      else []) ++ rest)
    []

/-- The left-associative conjunction of a list of conditions; none for the empty
list. -/
def leftAssocConjunction : List RamCondition → Option RamCondition
  | [] => none
  | c :: cs => some (cs.foldl RamCondition.Conjunction c)

/-- The pattern with both bounds reset to undefined at every listed position. -/
def resetPattern (pat : RamPattern) (d : List Nat) : RamPattern :=
  d.foldl (fun q i => (q.1.set i RamExpression.UndefValue, q.2.set i RamExpression.UndefValue)) pat

/-- The signature remaining after removing the positions the analysis discharges. -/
def narrowedSignature (idx : IndexAnalysis) (r : RamRelationReference) (s : List Nat) :
    List Nat :=
  s.filter fun i => !decide (i ∈ idx.attributesToDischarge r s)

/-- Modelled from the spec: the analysis returns the attributes the chosen index
cannot cover, so on the signature that remains after discharging them the chosen
index covers every still-constrained attribute — a second query reports nothing
left to discharge.  This is the behaviour of the intended index-selection
analysis, stated as a property of the black box. -/
def DischargeStable (idx : IndexAnalysis) : Prop :=
  ∀ r s, idx.attributesToDischarge r (narrowedSignature idx r s) = []

/-- The analysis reports a nonempty discharge set for this node (an index-bearing
operation queried by the first pass). -/
def reportsDischarge (idx : IndexAnalysis) : RamOperation → Bool
  | .IndexScan r _ pat _ _ => !(idx.attributesToDischarge r (searchSignature pat)).isEmpty
  | .ParallelIndexScan r _ pat _ _ =>
      !(idx.attributesToDischarge r (searchSignature pat)).isEmpty
  | .IndexChoice r _ _ pat _ _ =>
      !(idx.attributesToDischarge r (searchSignature pat)).isEmpty
  | .IndexAggregate _ _ r _ _ pat _ =>
      !(idx.attributesToDischarge r (searchSignature pat)).isEmpty
  | .UnknownIndexOperation r _ pat _ _ =>
      !(idx.attributesToDischarge r (searchSignature pat)).isEmpty
  | _ => false

/-- Some operation in the subtree is an index-bearing node for which the analysis
reports a nonempty discharge set. -/
def pass1Flag (idx : IndexAnalysis) (op : RamOperation) : Bool :=
  (subOps op).any (reportsDischarge idx)

/-- Every attribute the analysis asks this node to discharge already has both
bounds undefined (so the first pass synthesizes nothing here). -/
def nodeDischargeOk (idx : IndexAnalysis) : RamOperation → Prop
  | .IndexScan r _ pat _ _ =>
      ∀ i ∈ idx.attributesToDischarge r (searchSignature pat), undefAt pat i = true
  | .ParallelIndexScan r _ pat _ _ =>
      ∀ i ∈ idx.attributesToDischarge r (searchSignature pat), undefAt pat i = true
  | .IndexChoice r _ _ pat _ _ =>
      ∀ i ∈ idx.attributesToDischarge r (searchSignature pat), undefAt pat i = true
  | .IndexAggregate _ _ r _ _ pat _ =>
      ∀ i ∈ idx.attributesToDischarge r (searchSignature pat), undefAt pat i = true
  | .UnknownIndexOperation r _ pat _ _ =>
      ∀ i ∈ idx.attributesToDischarge r (searchSignature pat), undefAt pat i = true
  | _ => True

/-- The node is not an index-bearing operation with an all-undefined pattern
(covering the unknown variant as well, so the second pass neither rewrites nor
fails at it). -/
def nodeNonEmptyIndex : RamOperation → Prop
  | .IndexScan _ _ pat _ _ => foundRealIndexableOperation pat = true
  | .ParallelIndexScan _ _ pat _ _ => foundRealIndexableOperation pat = true
  | .IndexChoice _ _ _ pat _ _ => foundRealIndexableOperation pat = true
  | .IndexAggregate _ _ _ _ _ pat _ => foundRealIndexableOperation pat = true
  | .UnknownIndexOperation _ _ pat _ _ => foundRealIndexableOperation pat = true
  | _ => True

namespace Legacy

/-- Modelled from the spec: legacy RAM values — constants and tuple-element reads
(the legacy RamValue.h is not under src/); structural equality. -/
inductive RamValue
  | Number (n : Int)
  | TupleElement (lvl pos : Nat)
  deriving DecidableEq, Repr

/-- Modelled from the spec: legacy RAM conditions — binary constraints over values
and conjunctions (the legacy RamCondition.h is not under src/); structural
equality. -/
inductive RamCondition
  | Conjunction (lhs rhs : RamCondition)
  | Constraint (op : BinaryConstraintOp) (lhs rhs : RamValue)
  deriving DecidableEq, Repr

/-- The legacy relation handle: name and arity (RamRelation.h is not under src/,
modelled from the spec). -/
structure RamRelationReference where
  name : String
  arity : Nat
  deriving DecidableEq, Repr

/-- The legacy operation hierarchy of src/src/RamOperation.h, flattened: each
constructor carries the fields its class declares plus the inherited ones (the
base RamOperation's optional condition, RamSearch's profile text).  Pattern slots
are nullable owned pointers, modelled by Option.  The bookkeeping `level` field is
omitted: equal() never inspects it and clone() recomputes it from nesting. -/
inductive RamOperation
  | Scan (cond : Option RamCondition) (rel : RamRelationReference) (ident : Nat)
      (nested : RamOperation) (profile : String)
  | IndexScan (cond : Option RamCondition) (rel : RamRelationReference) (ident : Nat)
      (nested : RamOperation) (profile : String) (queryPattern : List (Option RamValue))
      (keys : Nat)
  | Lookup (cond : Option RamCondition) (nested : RamOperation) (profile : String)
      (refLevel refPos arity ident : Nat)
  | Aggregate (cond : Option RamCondition) (nested : RamOperation) (profile : String)
      (fn : AggregateFunction) (value : RamValue) (rel : RamRelationReference)
      (pattern : List (Option RamValue)) (keys : Nat) (ident : Nat)
  | Project (cond : Option RamCondition) (rel : RamRelationReference)
      (filterRel : Option RamRelationReference) (vals : List RamValue)
  deriving DecidableEq, Repr

/-- clone() of the legacy hierarchy (src/src/RamOperation.h).  Every modelled
clone() builds the copy through a constructor that initialises the base condition
to null and none of them copies it back except RamIndexScan::clone, which
dereferences the possibly-null condition unconditionally (line 323) — a null
condition there crashes, modelled by `none`.  RamLookup's constructor takes no
profile text, so its clone resets the profile to the empty string.
RamIndexScan::clone (lines 325–329) and RamAggregate::clone (lines 501–505) push
the cloned defined slots onto a query pattern that the constructor already
pre-sized with one null slot per attribute of the relation (in RamIndexSearch's
constructor, line 270, the arity is even read through the relation handle after it
was moved into the base subobject — a use-after-move; the model charitably reads
it before the move). -/
def RamOperation.clone : RamOperation → Option RamOperation
  | .Scan _ rel ident nested prof => do
      let n ← nested.clone
      some (.Scan none rel ident n prof)
  | .IndexScan cond rel ident nested prof pat ks => do
      let n ← nested.clone
      let c ← cond
      some (.IndexScan (some c) rel ident n prof
        (List.replicate rel.arity none ++ pat.filter fun s => s.isSome) ks)
  | .Lookup _ nested _ rl rp ar ident => do
      let n ← nested.clone
      some (.Lookup none n "" rl rp ar ident)
  | .Aggregate _ nested _ fn v rel pat ks ident => do
      let n ← nested.clone
      some (.Aggregate none n "" fn v rel
        (List.replicate rel.arity none ++ pat.filter fun s => s.isSome) ks ident)
  | .Project _ rel fr vs => some (.Project none rel fr vs)

/-- RamOperation::equal (lines 104–114): both conditions absent, or both present
and recursively equal. -/
def optCondEqual : Option RamCondition → Option RamCondition → Bool
  | some a, some b => decide (a = b)
  | none, none => true
  | _, _ => false

/-- Modelled from the spec: elementwise deep equality of the owned-pointer vectors
(the equal_targets utility is not under src/). -/
def equalTargets (a b : List (Option RamValue)) : Bool :=
  decide (a = b)

/-- RamProject::equal's filter comparison (lines 678–683): both absent, or both
present and equal. -/
def optRelEqual : Option RamRelationReference → Option RamRelationReference → Bool
  | some a, some b => decide (a = b)
  | none, none => true
  | _, _ => false

/-- The equal() chain of src/src/RamOperation.h, with mismatched node types unequal
(RamNode::operator==, modelled from the spec).  RamLookup::equal (lines 415–420)
compares reference position, reference level and arity but not the tuple
identifier.  RamAggregate::equal (line 528) compares the target expressions by raw
pointer; under exclusive ownership the value pointers of two distinct nodes always
differ, modelled by the trailing `false`. -/
def RamOperation.equal : RamOperation → RamOperation → Bool
  | .Scan c1 r1 i1 n1 p1, .Scan c2 r2 i2 n2 p2 =>
      optCondEqual c1 c2 && n1.equal n2 && decide (p1 = p2) && decide (r1 = r2)
        && decide (i1 = i2)
  | .IndexScan c1 r1 i1 n1 p1 q1 k1, .IndexScan c2 r2 i2 n2 p2 q2 k2 =>
      optCondEqual c1 c2 && n1.equal n2 && decide (p1 = p2) && decide (r1 = r2)
        && decide (i1 = i2) && equalTargets q1 q2 && decide (k1 = k2)
  | .Lookup c1 n1 p1 rl1 rp1 ar1 _, .Lookup c2 n2 p2 rl2 rp2 ar2 _ =>
      optCondEqual c1 c2 && n1.equal n2 && decide (p1 = p2) && decide (rp1 = rp2)
        && decide (rl1 = rl2) && decide (ar1 = ar2)
  | .Aggregate c1 n1 p1 fn1 _ r1 q1 k1 _, .Aggregate c2 n2 p2 fn2 _ r2 q2 k2 _ =>
      optCondEqual c1 c2 && n1.equal n2 && decide (p1 = p2) && decide (r1 = r2)
        && equalTargets q1 q2 && decide (k1 = k2) && decide (fn1 = fn2) && false
  | .Project c1 r1 f1 v1, .Project c2 r2 f2 v2 =>
      optCondEqual c1 c2 && decide (r1 = r2) && decide (v1 = v2) && optRelEqual f1 f2
  | _, _ => false

/-- The length of the node's own query pattern (zero for pattern-free variants). -/
def RamOperation.patternLength : RamOperation → Nat
  | .IndexScan _ _ _ _ _ pat _ => pat.length
  | .Aggregate _ _ _ _ _ _ pat _ _ => pat.length
  | _ => 0

/-- Replace the one component equal() ignores — the Lookup tuple identifier — by
zero everywhere in the tree. -/
def eraseLookupIdent : RamOperation → RamOperation
  | .Scan c r i n p => .Scan c r i (eraseLookupIdent n) p
  | .IndexScan c r i n p q k => .IndexScan c r i (eraseLookupIdent n) p q k
  | .Lookup c n p rl rp ar _ => .Lookup c (eraseLookupIdent n) p rl rp ar 0
  | .Aggregate c n p fn v r q k i => .Aggregate c (eraseLookupIdent n) p fn v r q k i
  | .Project c r f v => .Project c r f v

/-- The tree contains no aggregate node (whose equal() degenerates to pointer
comparison of target expressions). -/
def aggregateFree : RamOperation → Bool
  | .Scan _ _ _ n _ => aggregateFree n
  | .IndexScan _ _ _ n _ _ _ => aggregateFree n
  | .Lookup _ n _ _ _ _ _ => aggregateFree n
  | .Aggregate _ _ _ _ _ _ _ _ _ => false
  | .Project _ _ _ _ => true

end Legacy

theorem getD_set_undef (l : List RamExpression) (i j : Nat) :
    (l.set i .UndefValue).getD j .UndefValue
      = if j = i then .UndefValue else l.getD j .UndefValue := by
  induction l generalizing i j with
  | nil => simp
  | cons a l ih =>
    cases i with
    | zero =>
      cases j <;> simp
    | succ i =>
      cases j with
      | zero => simp
      | succ j => simpa using ih i j

theorem resetPattern_cons (pat : RamPattern) (i : Nat) (d : List Nat) :
    resetPattern pat (i :: d)
      = resetPattern (pat.1.set i RamExpression.UndefValue,
          pat.2.set i RamExpression.UndefValue) d := rfl

theorem resetPattern_lower (pat : RamPattern) (d : List Nat) (j : Nat) :
    lowerBound (resetPattern pat d) j
      = if j ∈ d then .UndefValue else lowerBound pat j := by
  induction d generalizing pat with
  | nil => simp [resetPattern]
  | cons i d ih =>
    rw [resetPattern_cons, ih]
    by_cases hd : j ∈ d
    · simp [hd]
    · simp only [hd, if_false, List.mem_cons]
      rw [show lowerBound (pat.1.set i RamExpression.UndefValue,
            pat.2.set i RamExpression.UndefValue) j
          = (pat.1.set i RamExpression.UndefValue).getD j .UndefValue from rfl,
        getD_set_undef]
      by_cases hj : j = i <;> simp [hj, hd, lowerBound]

theorem resetPattern_upper (pat : RamPattern) (d : List Nat) (j : Nat) :
    upperBound (resetPattern pat d) j
      = if j ∈ d then .UndefValue else upperBound pat j := by
  induction d generalizing pat with
  | nil => simp [resetPattern]
  | cons i d ih =>
    rw [resetPattern_cons, ih]
    by_cases hd : j ∈ d
    · simp [hd]
    · simp only [hd, if_false, List.mem_cons]
      rw [show upperBound (pat.1.set i RamExpression.UndefValue,
            pat.2.set i RamExpression.UndefValue) j
          = (pat.2.set i RamExpression.UndefValue).getD j .UndefValue from rfl,
        getD_set_undef]
      by_cases hj : j = i <;> simp [hj, hd, upperBound]

theorem resetPattern_length_fst (pat : RamPattern) (d : List Nat) :
    (resetPattern pat d).1.length = pat.1.length := by
  induction d generalizing pat with
  | nil => rfl
  | cons i d ih => rw [resetPattern_cons, ih]; simp

theorem resetPattern_length_snd (pat : RamPattern) (d : List Nat) :
    (resetPattern pat d).2.length = pat.2.length := by
  induction d generalizing pat with
  | nil => rfl
  | cons i d ih => rw [resetPattern_cons, ih]; simp

theorem dischargedConstraints_cons (tid : Nat) (pat : RamPattern) (i : Nat)
    (d : List Nat) :
    dischargedConstraints tid pat (i :: d)
      = ((if !isRamUndefValue (lowerBound pat i) then
            [RamCondition.Constraint .GE (.TupleElement tid i) (lowerBound pat i)]
          else []) ++
         (if !isRamUndefValue (upperBound pat i) then
            [RamCondition.Constraint .LE (.TupleElement tid i) (upperBound pat i)]
          else []) ++ dischargedConstraints tid pat d) := rfl

theorem dischargeAttribute_mk (tid : Nat) (pat : RamPattern) (acc : Option RamCondition)
    (q : RamPattern) (b : Bool) (i : Nat) :
    dischargeAttribute tid pat ⟨acc, q, b⟩ i
      = ⟨(if !isRamUndefValue (upperBound pat i) then
            addCondition
              (if !isRamUndefValue (lowerBound pat i) then
                addCondition acc
                  (.Constraint .GE (.TupleElement tid i) (lowerBound pat i))
              else acc)
              (.Constraint .LE (.TupleElement tid i) (upperBound pat i))
          else if !isRamUndefValue (lowerBound pat i) then
            addCondition acc (.Constraint .GE (.TupleElement tid i) (lowerBound pat i))
          else acc),
          (q.1.set i RamExpression.UndefValue, q.2.set i RamExpression.UndefValue),
          true⟩ := rfl

theorem dischargeLoop_foldl (tid : Nat) (pat : RamPattern) (d : List Nat)
    (acc : Option RamCondition) (q : RamPattern) (b : Bool) :
    d.foldl (dischargeAttribute tid pat) ⟨acc, q, b⟩
      = ⟨(dischargedConstraints tid pat d).foldl addCondition acc,
          resetPattern q d, b || !d.isEmpty⟩ := by
  induction d generalizing acc q b with
  | nil => simp [dischargedConstraints, resetPattern]
  | cons i d ih =>
    rw [List.foldl_cons, dischargeAttribute_mk, ih, dischargedConstraints_cons,
      ← resetPattern_cons]
    simp only [List.foldl_append, List.isEmpty_cons, Bool.not_false, Bool.or_true,
      Bool.true_or]
    by_cases hl : isRamUndefValue (lowerBound pat i)
      <;> by_cases hu : isRamUndefValue (upperBound pat i)
      <;> simp [hl, hu]

theorem foldl_addCondition_some (c0 : RamCondition) (cs : List RamCondition) :
    cs.foldl addCondition (some c0) = some (cs.foldl RamCondition.Conjunction c0) := by
  induction cs generalizing c0 with
  | nil => rfl
  | cons c cs ih => simp [addCondition, ih]

theorem foldl_addCondition_none (cs : List RamCondition) :
    cs.foldl addCondition none = leftAssocConjunction cs := by
  cases cs with
  | nil => rfl
  | cons c cs => simp [leftAssocConjunction, addCondition, foldl_addCondition_some]

theorem dischargeLoop_eq (tid : Nat) (pat : RamPattern) (d : List Nat) :
    dischargeLoop tid pat d
      = ⟨leftAssocConjunction (dischargedConstraints tid pat d),
          resetPattern pat d, !d.isEmpty⟩ := by
  rw [dischargeLoop, dischargeLoop_foldl, foldl_addCondition_none]
  simp

theorem dischargedConstraints_nil_iff (tid : Nat) (pat : RamPattern) (d : List Nat) :
    dischargedConstraints tid pat d = [] ↔ ∀ i ∈ d, undefAt pat i = true := by
  induction d with
  | nil => simp [dischargedConstraints]
  | cons i d ih =>
    rw [dischargedConstraints_cons]
    by_cases hl : isRamUndefValue (lowerBound pat i)
      <;> by_cases hu : isRamUndefValue (upperBound pat i)
      <;> simp [hl, hu, ih, undefAt]

theorem exceptBind_ok {α β : Type} {x : Except String α} {f : α → Except String β}
    {b : β} : x >>= f = .ok b ↔ ∃ a, x = .ok a ∧ f a = .ok b := by
  cases x <;> simp [Bind.bind, Except.bind]

theorem exceptPure_ok {α : Type} {a b : α} :
    (pure a : Except String α) = .ok b ↔ a = b := by
  simp [pure, Except.pure]

theorem leftAssocConjunction_some_ne_nil {cs : List RamCondition} {c : RamCondition}
    (h : leftAssocConjunction cs = some c) : cs ≠ [] := by
  intro e
  subst e
  simp [leftAssocConjunction] at h

theorem foundReal_eq_false_iff (pat : RamPattern) :
    foundRealIndexableOperation pat = false ↔ allUndefPattern pat := by
  unfold foundRealIndexableOperation allUndefPattern
  rw [← Bool.not_eq_true, List.any_eq_true]
  push_neg
  constructor
  · intro h i hi
    have := h i (List.mem_range.mpr hi)
    simpa [undefAt] using this
  · intro h i hi
    have := h i (List.mem_range.mp hi)
    simpa [undefAt] using this

theorem foundReal_eq_true_iff (pat : RamPattern) :
    foundRealIndexableOperation pat = true ↔ ¬ allUndefPattern pat := by
  rw [← foundReal_eq_false_iff]
  cases foundRealIndexableOperation pat <;> simp

theorem nonEmpty_not_emptyVariant (o : RamOperation) (h : nodeNonEmptyIndex o) :
    ¬ isEmptyIndexVariant o := by
  cases o <;> simp only [isEmptyIndexVariant, nodeNonEmptyIndex] at h ⊢
    <;> first
      | exact not_false
      | exact (foundReal_eq_true_iff _).mp h

theorem mapM_ok_forall2 {α β : Type} (f : α → Except String β) :
    ∀ (l : List α) (l' : List β), l.mapM f = .ok l'
      → List.Forall₂ (fun x y => f x = .ok y) l l' := by
  intro l
  induction l with
  | nil =>
    intro l' h
    rw [List.mapM_nil, exceptPure_ok] at h
    subst h
    exact List.Forall₂.nil
  | cons x xs ih =>
    intro l' h
    rw [List.mapM_cons] at h
    simp only [exceptBind_ok, exceptPure_ok] at h
    obtain ⟨y, hy, ys, hys, rfl⟩ := h
    exact List.Forall₂.cons hy (ih ys hys)

theorem mapM_ok_mem {α β : Type} (f : α → Except String β) (l : List α) (l' : List β)
    (h : l.mapM f = .ok l') : ∀ y ∈ l', ∃ x ∈ l, f x = .ok y := by
  have hf := mapM_ok_forall2 f l l' h
  clear h
  induction hf with
  | nil => simp
  | @cons x y xs ys hxy _ ih =>
    intro z hz
    rcases List.mem_cons.mp hz with rfl | hz
    · exact ⟨x, List.mem_cons_self _ _, hxy⟩
    · obtain ⟨x', hx', hfx'⟩ := ih z hz
      exact ⟨x', List.mem_cons_of_mem _ hx', hfx'⟩

theorem removeEmpty_output_nonEmpty (op : RamOperation) :
    ∀ op', removeEmptyIndexOp op = .ok op' → ∀ o ∈ subOps op', nodeNonEmptyIndex o := by
  induction op with
  | Scan r tid nested prof ih =>
    intro op' h
    simp only [removeEmptyIndexOp, exceptBind_ok, exceptPure_ok] at h
    obtain ⟨n, hn, rfl⟩ := h
    intro o ho
    rcases List.mem_cons.mp ho with rfl | ho
    · simp [nodeNonEmptyIndex]
    · exact ih n hn o ho
  | ParallelScan r tid nested prof ih =>
    intro op' h
    simp only [removeEmptyIndexOp, exceptBind_ok, exceptPure_ok] at h
    obtain ⟨n, hn, rfl⟩ := h
    intro o ho
    rcases List.mem_cons.mp ho with rfl | ho
    · simp [nodeNonEmptyIndex]
    · exact ih n hn o ho
  | Choice r tid cond nested prof ih =>
    intro op' h
    simp only [removeEmptyIndexOp, exceptBind_ok, exceptPure_ok] at h
    obtain ⟨n, hn, rfl⟩ := h
    intro o ho
    rcases List.mem_cons.mp ho with rfl | ho
    · simp [nodeNonEmptyIndex]
    · exact ih n hn o ho
  | Aggregate nested fn r e cond tid ih =>
    intro op' h
    simp only [removeEmptyIndexOp, exceptBind_ok, exceptPure_ok] at h
    obtain ⟨n, hn, rfl⟩ := h
    intro o ho
    rcases List.mem_cons.mp ho with rfl | ho
    · simp [nodeNonEmptyIndex]
    · exact ih n hn o ho
  | Filter cond nested ih =>
    intro op' h
    simp only [removeEmptyIndexOp, exceptBind_ok, exceptPure_ok] at h
    obtain ⟨n, hn, rfl⟩ := h
    intro o ho
    rcases List.mem_cons.mp ho with rfl | ho
    · simp [nodeNonEmptyIndex]
    · exact ih n hn o ho
  | Lookup nested rl rp ar tid ih =>
    intro op' h
    simp only [removeEmptyIndexOp, exceptBind_ok, exceptPure_ok] at h
    obtain ⟨n, hn, rfl⟩ := h
    intro o ho
    rcases List.mem_cons.mp ho with rfl | ho
    · simp [nodeNonEmptyIndex]
    · exact ih n hn o ho
  | Project r vs =>
    intro op' h
    rw [removeEmptyIndexOp, exceptPure_ok] at h
    subst h
    intro o ho
    rcases List.mem_cons.mp ho with rfl | ho
    · simp [nodeNonEmptyIndex]
    · simp at ho
  | SubroutineReturn vs =>
    intro op' h
    rw [removeEmptyIndexOp, exceptPure_ok] at h
    subst h
    intro o ho
    rcases List.mem_cons.mp ho with rfl | ho
    · simp [nodeNonEmptyIndex]
    · simp at ho
  | IndexScan r tid pat nested prof ih =>
    intro op' h
    simp only [removeEmptyIndexOp, exceptBind_ok] at h
    obtain ⟨n, hn, hif⟩ := h
    by_cases hf : foundRealIndexableOperation pat = true
    · rw [if_pos hf, exceptPure_ok] at hif
      subst hif
      intro o ho
      rcases List.mem_cons.mp ho with rfl | ho
      · simpa [nodeNonEmptyIndex] using hf
      · exact ih n hn o ho
    · rw [if_neg hf, exceptPure_ok] at hif
      subst hif
      intro o ho
      rcases List.mem_cons.mp ho with rfl | ho
      · simp [nodeNonEmptyIndex]
      · exact ih n hn o ho
  | ParallelIndexScan r tid pat nested prof ih =>
    intro op' h
    simp only [removeEmptyIndexOp, exceptBind_ok] at h
    obtain ⟨n, hn, hif⟩ := h
    by_cases hf : foundRealIndexableOperation pat = true
    · rw [if_pos hf, exceptPure_ok] at hif
      subst hif
      intro o ho
      rcases List.mem_cons.mp ho with rfl | ho
      · simpa [nodeNonEmptyIndex] using hf
      · exact ih n hn o ho
    · rw [if_neg hf, exceptPure_ok] at hif
      subst hif
      intro o ho
      rcases List.mem_cons.mp ho with rfl | ho
      · simp [nodeNonEmptyIndex]
      · exact ih n hn o ho
  | IndexChoice r tid cond pat nested prof ih =>
    intro op' h
    simp only [removeEmptyIndexOp, exceptBind_ok] at h
    obtain ⟨n, hn, hif⟩ := h
    by_cases hf : foundRealIndexableOperation pat = true
    · rw [if_pos hf, exceptPure_ok] at hif
      subst hif
      intro o ho
      rcases List.mem_cons.mp ho with rfl | ho
      · simpa [nodeNonEmptyIndex] using hf
      · exact ih n hn o ho
    · rw [if_neg hf, exceptPure_ok] at hif
      subst hif
      intro o ho
      rcases List.mem_cons.mp ho with rfl | ho
      · simp [nodeNonEmptyIndex]
      · exact ih n hn o ho
  | IndexAggregate nested fn r e cond pat tid ih =>
    intro op' h
    simp only [removeEmptyIndexOp, exceptBind_ok] at h
    obtain ⟨n, hn, hif⟩ := h
    by_cases hf : foundRealIndexableOperation pat = true
    · rw [if_pos hf, exceptPure_ok] at hif
      subst hif
      intro o ho
      rcases List.mem_cons.mp ho with rfl | ho
      · simpa [nodeNonEmptyIndex] using hf
      · exact ih n hn o ho
    · rw [if_neg hf, exceptPure_ok] at hif
      subst hif
      intro o ho
      rcases List.mem_cons.mp ho with rfl | ho
      · simp [nodeNonEmptyIndex]
      · exact ih n hn o ho
  | UnknownIndexOperation r tid pat nested prof ih =>
    intro op' h
    by_cases hf : foundRealIndexableOperation pat = true
    · rw [removeEmptyIndexOp, if_pos hf] at h
      simp only [exceptBind_ok, exceptPure_ok] at h
      obtain ⟨n, hn, rfl⟩ := h
      intro o ho
      rcases List.mem_cons.mp ho with rfl | ho
      · simpa [nodeNonEmptyIndex] using hf
      · exact ih n hn o ho
    · rw [removeEmptyIndexOp, if_neg hf] at h
      exact absurd h (by simp)

/-- Claim C1: for an IndexScan or IndexChoice operation whose discharge set (taken
from the index-selection analysis in increasing position order) carries a defined
lower or upper bound at some position — equivalently, a condition `c` is
synthesized — the index-to-filter pass replaces the operation by the same variant
carrying the narrowed pattern (both bounds reset to undefined at every discharged
position, all other slots unchanged, lengths preserved) and a new inner Filter
node wrapping the nested child, whose condition is the left-associative
conjunction, in increasing position order with lower bound before upper bound, of
the ≥ constraints (tuple element of the operation's own tuple identifier versus
the lower-bound expression) and ≤ constraints (versus the upper-bound
expression). -/
theorem indexToFilter_rewrites_indexScan_and_indexChoice
    (idx : IndexAnalysis) (r : RamRelationReference) (tid : Nat) (pat : RamPattern)
    (nested : RamOperation) (prof : String) (cond0 : RamCondition)
    (d : List Nat) (c : RamCondition) (n' : RamOperation) (ch' : Bool)
    (hd : d = idx.attributesToDischarge r (searchSignature pat))
    (_hsorted : d.Sorted (· < ·))
    (hc : leftAssocConjunction (dischargedConstraints tid pat d) = some c)
    (hn : indexToFilterOp idx nested = .ok (n', ch')) :
    indexToFilterOp idx (.IndexScan r tid pat nested prof)
        = .ok (.IndexScan r tid (resetPattern pat d) (.Filter c n') prof, true)
      ∧ indexToFilterOp idx (.IndexChoice r tid cond0 pat nested prof)
        = .ok (.IndexChoice r tid cond0 (resetPattern pat d) (.Filter c n') prof, true)
      ∧ (resetPattern pat d).1.length = pat.1.length
      ∧ (resetPattern pat d).2.length = pat.2.length
      ∧ (∀ j, lowerBound (resetPattern pat d) j
            = if j ∈ d then .UndefValue else lowerBound pat j)
      ∧ (∀ j, upperBound (resetPattern pat d) j
            = if j ∈ d then .UndefValue else upperBound pat j) := by
  have hne : d ≠ [] := by
    intro e
    rw [e] at hc
    simp [dischargedConstraints, leftAssocConjunction] at hc
  refine ⟨?_, ?_, resetPattern_length_fst pat d, resetPattern_length_snd pat d,
    fun j => resetPattern_lower pat d j, fun j => resetPattern_upper pat d j⟩
  · simp only [indexToFilterOp, ← hd, dischargeLoop_eq, hc, hn]
    simp [Bind.bind, Except.bind, pure, Except.pure, hne]
  · simp only [indexToFilterOp, ← hd, dischargeLoop_eq, hc, hn]
    simp [Bind.bind, Except.bind, pure, Except.pure, hne]

theorem indexToFilter_rewrites_indexScan_and_indexChoice_witness :
    indexToFilterOp ⟨fun _ _ => [1]⟩
        (.IndexScan ⟨"R", 2⟩ 0
          ([.UndefValue, .Number 5], [.UndefValue, .UndefValue])
          (.Project ⟨"R", 2⟩ []) "")
      = .ok (.IndexScan ⟨"R", 2⟩ 0
          ([.UndefValue, .UndefValue], [.UndefValue, .UndefValue])
          (.Filter
            (.Constraint .GE (.TupleElement 0 1) (.Number 5))
            (.Project ⟨"R", 2⟩ [])) "", true) :=
  (indexToFilter_rewrites_indexScan_and_indexChoice
    ⟨fun _ _ => [1]⟩ ⟨"R", 2⟩ 0
    ([.UndefValue, .Number 5], [.UndefValue, .UndefValue])
    (.Project ⟨"R", 2⟩ []) "" (.Constraint .EQ .UndefValue .UndefValue)
    [1] (.Constraint .GE (.TupleElement 0 1) (.Number 5))
    (.Project ⟨"R", 2⟩ []) false rfl (by simp) (by decide) rfl).1

/-- Claim C3: after running the index-to-filter pass and then the
empty-index-removal pass within one invocation of the transform, no operation
anywhere in the resulting program tree is an IndexScan, ParallelIndexScan,
IndexChoice or IndexAggregate whose range pattern has both bounds undefined at
every attribute position. -/
theorem transform_leaves_no_empty_index_operation
    (idx : IndexAnalysis) (p p' : RamProgram) (b : Bool)
    (h : transformIndexToFilter idx p = .ok (p', b)) :
    ∀ q ∈ p', ∀ o ∈ subOps q, ¬ isEmptyIndexVariant o := by
  simp only [transformIndexToFilter, exceptBind_ok, exceptPure_ok, Prod.mk.injEq] at h
  obtain ⟨fp, hfp, p2, hp2, rfl, rfl⟩ := h
  intro q hq o ho
  obtain ⟨q1, hq1, hrem⟩ := mapM_ok_mem removeEmptyIndexOp _ _ hp2 q hq
  exact nonEmpty_not_emptyVariant o (removeEmpty_output_nonEmpty q1 q hrem o ho)

theorem transform_leaves_no_empty_index_operation_witness :
    ¬ isEmptyIndexVariant
      (.Scan ⟨"R", 2⟩ 0
        (.Filter
          (.Conjunction
            (.Constraint .GE (.TupleElement 0 1) (.Number 5))
            (.Constraint .LE (.TupleElement 0 1) (.Number 5)))
          (.Project ⟨"R", 2⟩ [])) "") :=
  transform_leaves_no_empty_index_operation ⟨fun _ _ => [1]⟩
    [.IndexScan ⟨"R", 2⟩ 0 ([.UndefValue, .Number 5], [.UndefValue, .Number 5])
      (.Project ⟨"R", 2⟩ []) ""]
    [.Scan ⟨"R", 2⟩ 0
      (.Filter
        (.Conjunction
          (.Constraint .GE (.TupleElement 0 1) (.Number 5))
          (.Constraint .LE (.TupleElement 0 1) (.Number 5)))
        (.Project ⟨"R", 2⟩ [])) ""]
    true rfl
    (.Scan ⟨"R", 2⟩ 0
      (.Filter
        (.Conjunction
          (.Constraint .GE (.TupleElement 0 1) (.Number 5))
          (.Constraint .LE (.TupleElement 0 1) (.Number 5)))
        (.Project ⟨"R", 2⟩ [])) "")
    (by simp)
    (.Scan ⟨"R", 2⟩ 0
      (.Filter
        (.Conjunction
          (.Constraint .GE (.TupleElement 0 1) (.Number 5))
          (.Constraint .LE (.TupleElement 0 1) (.Number 5)))
        (.Project ⟨"R", 2⟩ [])) "")
    (by simp [subOps])

/-- Claim C4: the empty-index-removal pass replaces an index-bearing operation by
its non-indexed sibling variant — IndexScan→Scan, IndexChoice→Choice,
IndexAggregate→Aggregate — if and only if every attribute position of its range
pattern has both lower and upper bound undefined, copying the relation reference,
tuple identifier, (recursively processed) nested child and, for Choice/Aggregate,
the condition, target expression and function, and the profile annotation
unchanged; an operation with at least one defined bound is left in place. -/
theorem removeEmptyIndex_downgrades_iff_pattern_all_undefined
    (r : RamRelationReference) (tid : Nat) (pat : RamPattern) (nested n' : RamOperation)
    (prof : String) (cond : RamCondition) (fn : AggregateFunction) (e : RamExpression)
    (hn : removeEmptyIndexOp nested = .ok n') :
    (allUndefPattern pat →
        removeEmptyIndexOp (.IndexScan r tid pat nested prof) = .ok (.Scan r tid n' prof)
      ∧ removeEmptyIndexOp (.IndexChoice r tid cond pat nested prof)
          = .ok (.Choice r tid cond n' prof)
      ∧ removeEmptyIndexOp (.IndexAggregate nested fn r e cond pat tid)
          = .ok (.Aggregate n' fn r e cond tid))
    ∧ (¬ allUndefPattern pat →
        removeEmptyIndexOp (.IndexScan r tid pat nested prof)
          = .ok (.IndexScan r tid pat n' prof)
      ∧ removeEmptyIndexOp (.IndexChoice r tid cond pat nested prof)
          = .ok (.IndexChoice r tid cond pat n' prof)
      ∧ removeEmptyIndexOp (.IndexAggregate nested fn r e cond pat tid)
          = .ok (.IndexAggregate n' fn r e cond pat tid)) := by
  constructor
  · intro hall
    have hf : foundRealIndexableOperation pat = false :=
      (foundReal_eq_false_iff pat).mpr hall
    refine ⟨?_, ?_, ?_⟩ <;>
      simp [removeEmptyIndexOp, hn, hf, Bind.bind, Except.bind, pure, Except.pure]
  · intro hall
    have hf : foundRealIndexableOperation pat = true :=
      (foundReal_eq_true_iff pat).mpr hall
    refine ⟨?_, ?_, ?_⟩ <;>
      simp [removeEmptyIndexOp, hn, hf, Bind.bind, Except.bind, pure, Except.pure]

theorem removeEmptyIndex_downgrades_iff_pattern_all_undefined_witness :
    removeEmptyIndexOp
        (.IndexChoice ⟨"R", 2⟩ 0 (.Constraint .EQ (.Number 1) (.Number 1))
          ([.UndefValue, .UndefValue], [.UndefValue, .UndefValue])
          (.Project ⟨"R", 2⟩ []) "")
      = .ok (.Choice ⟨"R", 2⟩ 0 (.Constraint .EQ (.Number 1) (.Number 1))
          (.Project ⟨"R", 2⟩ []) "") :=
  ((removeEmptyIndex_downgrades_iff_pattern_all_undefined ⟨"R", 2⟩ 0
    ([.UndefValue, .UndefValue], [.UndefValue, .UndefValue])
    (.Project ⟨"R", 2⟩ []) (.Project ⟨"R", 2⟩ []) ""
    (.Constraint .EQ (.Number 1) (.Number 1)) .MIN (.Number 0) rfl).1
    (by decide)).2.1

/-- Claim C2: for an IndexAggregate for which the index-to-filter pass synthesizes
a discharge condition `c`, no Filter node is inserted: the aggregate is replaced
by an IndexAggregate carrying the narrowed pattern, the same function, relation,
target expression and tuple identifier, the nested child (recursed into, like
every operation), and a condition that is the conjunction of the aggregate's
existing condition first and the synthesized condition second. -/
theorem indexToFilter_strengthens_indexAggregate
    (idx : IndexAnalysis) (r : RamRelationReference) (tid : Nat) (pat : RamPattern)
    (nested : RamOperation) (fn : AggregateFunction) (e : RamExpression)
    (cond0 : RamCondition) (d : List Nat) (c : RamCondition)
    (n' : RamOperation) (ch' : Bool)
    (hd : d = idx.attributesToDischarge r (searchSignature pat))
    (_hsorted : d.Sorted (· < ·))
    (hc : leftAssocConjunction (dischargedConstraints tid pat d) = some c)
    (hn : indexToFilterOp idx nested = .ok (n', ch')) :
    indexToFilterOp idx (.IndexAggregate nested fn r e cond0 pat tid)
        = .ok (.IndexAggregate n' fn r e (.Conjunction cond0 c)
                (resetPattern pat d) tid, true)
      ∧ (resetPattern pat d).1.length = pat.1.length
      ∧ (resetPattern pat d).2.length = pat.2.length
      ∧ (∀ j, lowerBound (resetPattern pat d) j
            = if j ∈ d then .UndefValue else lowerBound pat j)
      ∧ (∀ j, upperBound (resetPattern pat d) j
            = if j ∈ d then .UndefValue else upperBound pat j) := by
  have hne : d ≠ [] := by
    intro e
    rw [e] at hc
    simp [dischargedConstraints, leftAssocConjunction] at hc
  refine ⟨?_, resetPattern_length_fst pat d, resetPattern_length_snd pat d,
    fun j => resetPattern_lower pat d j, fun j => resetPattern_upper pat d j⟩
  simp only [indexToFilterOp, ← hd, dischargeLoop_eq, hc, hn]
  simp [Bind.bind, Except.bind, pure, Except.pure, hne]

theorem indexToFilter_strengthens_indexAggregate_witness :
    indexToFilterOp ⟨fun _ _ => [1]⟩
        (.IndexAggregate (.Project ⟨"R", 2⟩ []) .SUM ⟨"R", 2⟩ (.TupleElement 0 0)
          (.Constraint .EQ (.Number 3) (.Number 3))
          ([.UndefValue, .Number 5], [.UndefValue, .Number 5]) 0)
      = .ok (.IndexAggregate (.Project ⟨"R", 2⟩ []) .SUM ⟨"R", 2⟩ (.TupleElement 0 0)
          (.Conjunction (.Constraint .EQ (.Number 3) (.Number 3))
            (.Conjunction
              (.Constraint .GE (.TupleElement 0 1) (.Number 5))
              (.Constraint .LE (.TupleElement 0 1) (.Number 5))))
          ([.UndefValue, .UndefValue], [.UndefValue, .UndefValue]) 0, true) :=
  (indexToFilter_strengthens_indexAggregate
    ⟨fun _ _ => [1]⟩ ⟨"R", 2⟩ 0
    ([.UndefValue, .Number 5], [.UndefValue, .Number 5])
    (.Project ⟨"R", 2⟩ []) .SUM (.TupleElement 0 0)
    (.Constraint .EQ (.Number 3) (.Number 3))
    [1]
    (.Conjunction (.Constraint .GE (.TupleElement 0 1) (.Number 5))
      (.Constraint .LE (.TupleElement 0 1) (.Number 5)))
    (.Project ⟨"R", 2⟩ []) false rfl (by simp) (by decide) rfl).1

theorem indexToFilterOp_flag (idx : IndexAnalysis) (op : RamOperation) :
    ∀ op' b, indexToFilterOp idx op = .ok (op', b) → b = pass1Flag idx op := by
  induction op with
  | Scan r tid nested prof ih =>
    intro op' b h
    simp only [indexToFilterOp, exceptBind_ok] at h
    obtain ⟨⟨n, ch⟩, hn, hp⟩ := h
    simp only [exceptPure_ok, Prod.mk.injEq] at hp
    obtain ⟨_, rfl⟩ := hp
    rw [ih n ch hn]
    simp [pass1Flag, subOps, reportsDischarge]
  | ParallelScan r tid nested prof ih =>
    intro op' b h
    simp only [indexToFilterOp, exceptBind_ok] at h
    obtain ⟨⟨n, ch⟩, hn, hp⟩ := h
    simp only [exceptPure_ok, Prod.mk.injEq] at hp
    obtain ⟨_, rfl⟩ := hp
    rw [ih n ch hn]
    simp [pass1Flag, subOps, reportsDischarge]
  | Choice r tid cond nested prof ih =>
    intro op' b h
    simp only [indexToFilterOp, exceptBind_ok] at h
    obtain ⟨⟨n, ch⟩, hn, hp⟩ := h
    simp only [exceptPure_ok, Prod.mk.injEq] at hp
    obtain ⟨_, rfl⟩ := hp
    rw [ih n ch hn]
    simp [pass1Flag, subOps, reportsDischarge]
  | Aggregate nested fn r e cond tid ih =>
    intro op' b h
    simp only [indexToFilterOp, exceptBind_ok] at h
    obtain ⟨⟨n, ch⟩, hn, hp⟩ := h
    simp only [exceptPure_ok, Prod.mk.injEq] at hp
    obtain ⟨_, rfl⟩ := hp
    rw [ih n ch hn]
    simp [pass1Flag, subOps, reportsDischarge]
  | Filter cond nested ih =>
    intro op' b h
    simp only [indexToFilterOp, exceptBind_ok] at h
    obtain ⟨⟨n, ch⟩, hn, hp⟩ := h
    simp only [exceptPure_ok, Prod.mk.injEq] at hp
    obtain ⟨_, rfl⟩ := hp
    rw [ih n ch hn]
    simp [pass1Flag, subOps, reportsDischarge]
  | Lookup nested rl rp ar tid ih =>
    intro op' b h
    simp only [indexToFilterOp, exceptBind_ok] at h
    obtain ⟨⟨n, ch⟩, hn, hp⟩ := h
    simp only [exceptPure_ok, Prod.mk.injEq] at hp
    obtain ⟨_, rfl⟩ := hp
    rw [ih n ch hn]
    simp [pass1Flag, subOps, reportsDischarge]
  | Project r vs =>
    intro op' b h
    simp only [indexToFilterOp, exceptPure_ok, Prod.mk.injEq] at h
    obtain ⟨_, rfl⟩ := h
    simp [pass1Flag, subOps, reportsDischarge]
  | SubroutineReturn vs =>
    intro op' b h
    simp only [indexToFilterOp, exceptPure_ok, Prod.mk.injEq] at h
    obtain ⟨_, rfl⟩ := h
    simp [pass1Flag, subOps, reportsDischarge]
  | IndexScan r tid pat nested prof ih =>
    intro op' b h
    cases hlc : leftAssocConjunction (dischargedConstraints tid pat
        (idx.attributesToDischarge r (searchSignature pat))) with
    | some c =>
      simp only [indexToFilterOp, dischargeLoop_eq, hlc, exceptBind_ok] at h
      obtain ⟨⟨n, ch⟩, hn, hp⟩ := h
      simp only [exceptPure_ok, Prod.mk.injEq] at hp
      obtain ⟨_, rfl⟩ := hp
      rw [ih n ch hn]
      simp [pass1Flag, subOps, reportsDischarge]
    | none =>
      simp only [indexToFilterOp, dischargeLoop_eq, hlc, exceptBind_ok] at h
      obtain ⟨⟨n, ch⟩, hn, hp⟩ := h
      simp only [exceptPure_ok, Prod.mk.injEq] at hp
      obtain ⟨_, rfl⟩ := hp
      rw [ih n ch hn]
      simp [pass1Flag, subOps, reportsDischarge]
  | ParallelIndexScan r tid pat nested prof ih =>
    intro op' b h
    cases hlc : leftAssocConjunction (dischargedConstraints tid pat
        (idx.attributesToDischarge r (searchSignature pat))) with
    | some c =>
      simp only [indexToFilterOp, dischargeLoop_eq, hlc, exceptBind_ok] at h
      obtain ⟨⟨n, ch⟩, hn, hp⟩ := h
      simp only [exceptPure_ok, Prod.mk.injEq] at hp
      obtain ⟨_, rfl⟩ := hp
      rw [ih n ch hn]
      simp [pass1Flag, subOps, reportsDischarge]
    | none =>
      simp only [indexToFilterOp, dischargeLoop_eq, hlc, exceptBind_ok] at h
      obtain ⟨⟨n, ch⟩, hn, hp⟩ := h
      simp only [exceptPure_ok, Prod.mk.injEq] at hp
      obtain ⟨_, rfl⟩ := hp
      rw [ih n ch hn]
      simp [pass1Flag, subOps, reportsDischarge]
  | IndexChoice r tid cond pat nested prof ih =>
    intro op' b h
    cases hlc : leftAssocConjunction (dischargedConstraints tid pat
        (idx.attributesToDischarge r (searchSignature pat))) with
    | some c =>
      simp only [indexToFilterOp, dischargeLoop_eq, hlc, exceptBind_ok] at h
      obtain ⟨⟨n, ch⟩, hn, hp⟩ := h
      simp only [exceptPure_ok, Prod.mk.injEq] at hp
      obtain ⟨_, rfl⟩ := hp
      rw [ih n ch hn]
      simp [pass1Flag, subOps, reportsDischarge]
    | none =>
      simp only [indexToFilterOp, dischargeLoop_eq, hlc, exceptBind_ok] at h
      obtain ⟨⟨n, ch⟩, hn, hp⟩ := h
      simp only [exceptPure_ok, Prod.mk.injEq] at hp
      obtain ⟨_, rfl⟩ := hp
      rw [ih n ch hn]
      simp [pass1Flag, subOps, reportsDischarge]
  | IndexAggregate nested fn r e cond pat tid ih =>
    intro op' b h
    cases hlc : leftAssocConjunction (dischargedConstraints tid pat
        (idx.attributesToDischarge r (searchSignature pat))) with
    | some c =>
      simp only [indexToFilterOp, dischargeLoop_eq, hlc, exceptBind_ok] at h
      obtain ⟨⟨n, ch⟩, hn, hp⟩ := h
      simp only [exceptPure_ok, Prod.mk.injEq] at hp
      obtain ⟨_, rfl⟩ := hp
      rw [ih n ch hn]
      simp [pass1Flag, subOps, reportsDischarge]
    | none =>
      simp only [indexToFilterOp, dischargeLoop_eq, hlc, exceptBind_ok] at h
      obtain ⟨⟨n, ch⟩, hn, hp⟩ := h
      simp only [exceptPure_ok, Prod.mk.injEq] at hp
      obtain ⟨_, rfl⟩ := hp
      rw [ih n ch hn]
      simp [pass1Flag, subOps, reportsDischarge]
  | UnknownIndexOperation r tid pat nested prof ih =>
    intro op' b h
    cases hlc : leftAssocConjunction (dischargedConstraints tid pat
        (idx.attributesToDischarge r (searchSignature pat))) with
    | some c =>
      simp only [indexToFilterOp, dischargeLoop_eq, hlc] at h
      exact absurd h (by simp)
    | none =>
      simp only [indexToFilterOp, dischargeLoop_eq, hlc, exceptBind_ok] at h
      obtain ⟨⟨n, ch⟩, hn, hp⟩ := h
      simp only [exceptPure_ok, Prod.mk.injEq] at hp
      obtain ⟨_, rfl⟩ := hp
      rw [ih n ch hn]
      simp [pass1Flag, subOps, reportsDischarge]

/-- Claim C6 counterexample: the analysis asks this IndexScan to discharge
attribute 1, whose bounds are both undefined — nothing is synthesized, neither
pass replaces any node, the result tree is identical to the input — yet the
transform reports `true`: the changed flag is set for every discharged attribute
even when the operation is left structurally unchanged. -/
theorem changed_flag_true_without_rewrite :
    transformIndexToFilter ⟨fun _ _ => [1]⟩
        [.IndexScan ⟨"R", 2⟩ 0 ([.Number 3, .UndefValue], [.Number 3, .UndefValue])
          (.Project ⟨"R", 2⟩ []) ""]
      = .ok ([.IndexScan ⟨"R", 2⟩ 0 ([.Number 3, .UndefValue], [.Number 3, .UndefValue])
          (.Project ⟨"R", 2⟩ []) ""], true) := rfl

/-- Claim C6 (amended): the boolean result of the transform is true iff the
index-selection analysis reports a nonempty set of attributes to discharge for at
least one index-bearing operation of the input tree; it is independent of whether
any node was actually replaced, and rewrites performed by the empty-index-removal
pass never set it. -/
theorem changed_flag_reports_discharge_requests
    (idx : IndexAnalysis) (p p' : RamProgram) (b : Bool)
    (h : transformIndexToFilter idx p = .ok (p', b)) :
    b = p.any (pass1Flag idx) := by
  simp only [transformIndexToFilter, exceptBind_ok, exceptPure_ok, Prod.mk.injEq] at h
  obtain ⟨fp, hfp, p2, hp2, rfl, rfl⟩ := h
  have h2 := mapM_ok_forall2 _ _ _ hfp
  clear hfp hp2
  induction h2 with
  | nil => simp
  | @cons x y xs ys hxy _ ih =>
    simp only [List.any_cons, ih]
    congr 1
    exact indexToFilterOp_flag idx x y.1 y.2 hxy

theorem changed_flag_reports_discharge_requests_witness :
    true = List.any
        [RamOperation.IndexScan ⟨"R", 2⟩ 0
          ([.Number 3, .UndefValue], [.Number 3, .UndefValue])
          (.Project ⟨"R", 2⟩ []) ""]
        (pass1Flag ⟨fun _ _ => [1]⟩) :=
  changed_flag_reports_discharge_requests ⟨fun _ _ => [1]⟩
    [.IndexScan ⟨"R", 2⟩ 0 ([.Number 3, .UndefValue], [.Number 3, .UndefValue])
      (.Project ⟨"R", 2⟩ []) ""]
    [.IndexScan ⟨"R", 2⟩ 0 ([.Number 3, .UndefValue], [.Number 3, .UndefValue])
      (.Project ⟨"R", 2⟩ []) ""]
    true rfl

/-- Claim C10 counterexample: this index-bearing operation outside the closed
variant set is reached by both passes — its pattern carries a defined bound and
the analysis reports nothing to discharge — and the whole transform completes
without any fatal failure, leaving the node in place. -/
theorem unknown_index_variant_without_rewrite_no_fatal :
    transformIndexToFilter ⟨fun _ _ => []⟩
        [.UnknownIndexOperation ⟨"R", 2⟩ 0
          ([.Number 3, .UndefValue], [.Number 3, .UndefValue])
          (.Project ⟨"R", 2⟩ []) ""]
      = .ok ([.UnknownIndexOperation ⟨"R", 2⟩ 0
          ([.Number 3, .UndefValue], [.Number 3, .UndefValue])
          (.Project ⟨"R", 2⟩ []) ""], false) := rfl

/-- Claim C10 (amended): an index-bearing operation whose variant falls outside
the closed set known to the transform triggers the fatal internal-consistency
failure (with the message naming the transform) exactly when the pass would have
to rewrite it — in the index-to-filter pass iff a discharge condition was
synthesized, in the empty-index-removal pass iff its pattern is entirely
undefined; otherwise the unknown variant is recursed into and passed through
without an error. -/
theorem unknown_index_variant_fatal_iff_rewrite_needed
    (idx : IndexAnalysis) (r : RamRelationReference) (tid : Nat) (pat : RamPattern)
    (nested : RamOperation) (prof : String) (n' : RamOperation) (ch' : Bool)
    (n2 : RamOperation)
    (hn1 : indexToFilterOp idx nested = .ok (n', ch'))
    (hn2 : removeEmptyIndexOp nested = .ok n2) :
    (∀ c, leftAssocConjunction (dischargedConstraints tid pat
          (idx.attributesToDischarge r (searchSignature pat))) = some c →
        indexToFilterOp idx (.UnknownIndexOperation r tid pat nested prof)
          = .error "New RamIndexOperation subclass found but not supported while making index.")
    ∧ (leftAssocConjunction (dischargedConstraints tid pat
          (idx.attributesToDischarge r (searchSignature pat))) = none →
        indexToFilterOp idx (.UnknownIndexOperation r tid pat nested prof)
          = .ok (.UnknownIndexOperation r tid pat n' prof,
              !(idx.attributesToDischarge r (searchSignature pat)).isEmpty || ch'))
    ∧ (allUndefPattern pat →
        removeEmptyIndexOp (.UnknownIndexOperation r tid pat nested prof)
          = .error "New RamIndexOperation subclass found but not supported while transforming index.")
    ∧ (¬ allUndefPattern pat →
        removeEmptyIndexOp (.UnknownIndexOperation r tid pat nested prof)
          = .ok (.UnknownIndexOperation r tid pat n2 prof)) := by
  refine ⟨?_, ?_, ?_, ?_⟩
  · intro c hc
    simp only [indexToFilterOp, dischargeLoop_eq, hc]
  · intro hc
    simp only [indexToFilterOp, dischargeLoop_eq, hc, hn1]
    simp [Bind.bind, Except.bind, pure, Except.pure]
  · intro hall
    have hf := (foundReal_eq_false_iff pat).mpr hall
    rw [removeEmptyIndexOp, if_neg (by simp [hf])]
  · intro hall
    have hf := (foundReal_eq_true_iff pat).mpr hall
    rw [removeEmptyIndexOp, if_pos hf]
    simp [hn2, Bind.bind, Except.bind, pure, Except.pure]

theorem leftAssocConjunction_eq_none {cs : List RamCondition} :
    leftAssocConjunction cs = none ↔ cs = [] := by
  cases cs <;> simp [leftAssocConjunction]

theorem searchSignature_resetPattern (pat : RamPattern) (D : List Nat) :
    searchSignature (resetPattern pat D)
      = (searchSignature pat).filter (fun i => !decide (i ∈ D)) := by
  unfold searchSignature
  rw [List.filter_filter, resetPattern_length_fst]
  apply List.filter_congr
  intro i _
  rw [show lowerBound (resetPattern pat D) i = lowerBound (resetPattern pat D) i from rfl,
    resetPattern_lower, resetPattern_upper]
  by_cases hD : i ∈ D <;> simp [hD, isRamUndefValue]

theorem searchSignature_reset_discharge (idx : IndexAnalysis)
    (r : RamRelationReference) (pat : RamPattern) :
    searchSignature (resetPattern pat (idx.attributesToDischarge r (searchSignature pat)))
      = narrowedSignature idx r (searchSignature pat) :=
  searchSignature_resetPattern pat _

theorem indexToFilter_id (idx : IndexAnalysis) (op : RamOperation)
    (h : ∀ o ∈ subOps op, nodeDischargeOk idx o) :
    ∃ b, indexToFilterOp idx op = .ok (op, b) := by
  induction op with
  | Scan r tid nested prof ih =>
    obtain ⟨b, hb⟩ := ih (fun o ho => h o (List.mem_cons_of_mem _ ho))
    exact ⟨b, by simp [indexToFilterOp, hb, Bind.bind, Except.bind, pure, Except.pure]⟩
  | ParallelScan r tid nested prof ih =>
    obtain ⟨b, hb⟩ := ih (fun o ho => h o (List.mem_cons_of_mem _ ho))
    exact ⟨b, by simp [indexToFilterOp, hb, Bind.bind, Except.bind, pure, Except.pure]⟩
  | Choice r tid cond nested prof ih =>
    obtain ⟨b, hb⟩ := ih (fun o ho => h o (List.mem_cons_of_mem _ ho))
    exact ⟨b, by simp [indexToFilterOp, hb, Bind.bind, Except.bind, pure, Except.pure]⟩
  | Aggregate nested fn r e cond tid ih =>
    obtain ⟨b, hb⟩ := ih (fun o ho => h o (List.mem_cons_of_mem _ ho))
    exact ⟨b, by simp [indexToFilterOp, hb, Bind.bind, Except.bind, pure, Except.pure]⟩
  | Filter cond nested ih =>
    obtain ⟨b, hb⟩ := ih (fun o ho => h o (List.mem_cons_of_mem _ ho))
    exact ⟨b, by simp [indexToFilterOp, hb, Bind.bind, Except.bind, pure, Except.pure]⟩
  | Lookup nested rl rp ar tid ih =>
    obtain ⟨b, hb⟩ := ih (fun o ho => h o (List.mem_cons_of_mem _ ho))
    exact ⟨b, by simp [indexToFilterOp, hb, Bind.bind, Except.bind, pure, Except.pure]⟩
  | Project r vs => exact ⟨false, rfl⟩
  | SubroutineReturn vs => exact ⟨false, rfl⟩
  | IndexScan r tid pat nested prof ih =>
    obtain ⟨b, hb⟩ := ih (fun o ho => h o (List.mem_cons_of_mem _ ho))
    have hcs : dischargedConstraints tid pat
        (idx.attributesToDischarge r (searchSignature pat)) = [] :=
      (dischargedConstraints_nil_iff _ _ _).mpr (h _ (List.mem_cons_self _ _))
    refine ⟨!(idx.attributesToDischarge r (searchSignature pat)).isEmpty || b, ?_⟩
    simp only [indexToFilterOp, dischargeLoop_eq, hcs, leftAssocConjunction]
    simp [hb, Bind.bind, Except.bind, pure, Except.pure]
  | ParallelIndexScan r tid pat nested prof ih =>
    obtain ⟨b, hb⟩ := ih (fun o ho => h o (List.mem_cons_of_mem _ ho))
    have hcs : dischargedConstraints tid pat
        (idx.attributesToDischarge r (searchSignature pat)) = [] :=
      (dischargedConstraints_nil_iff _ _ _).mpr (h _ (List.mem_cons_self _ _))
    refine ⟨!(idx.attributesToDischarge r (searchSignature pat)).isEmpty || b, ?_⟩
    simp only [indexToFilterOp, dischargeLoop_eq, hcs, leftAssocConjunction]
    simp [hb, Bind.bind, Except.bind, pure, Except.pure]
  | IndexChoice r tid cond pat nested prof ih =>
    obtain ⟨b, hb⟩ := ih (fun o ho => h o (List.mem_cons_of_mem _ ho))
    have hcs : dischargedConstraints tid pat
        (idx.attributesToDischarge r (searchSignature pat)) = [] :=
      (dischargedConstraints_nil_iff _ _ _).mpr (h _ (List.mem_cons_self _ _))
    refine ⟨!(idx.attributesToDischarge r (searchSignature pat)).isEmpty || b, ?_⟩
    simp only [indexToFilterOp, dischargeLoop_eq, hcs, leftAssocConjunction]
    simp [hb, Bind.bind, Except.bind, pure, Except.pure]
  | IndexAggregate nested fn r e cond pat tid ih =>
    obtain ⟨b, hb⟩ := ih (fun o ho => h o (List.mem_cons_of_mem _ ho))
    have hcs : dischargedConstraints tid pat
        (idx.attributesToDischarge r (searchSignature pat)) = [] :=
      (dischargedConstraints_nil_iff _ _ _).mpr (h _ (List.mem_cons_self _ _))
    refine ⟨!(idx.attributesToDischarge r (searchSignature pat)).isEmpty || b, ?_⟩
    simp only [indexToFilterOp, dischargeLoop_eq, hcs, leftAssocConjunction]
    simp [hb, Bind.bind, Except.bind, pure, Except.pure]
  | UnknownIndexOperation r tid pat nested prof ih =>
    obtain ⟨b, hb⟩ := ih (fun o ho => h o (List.mem_cons_of_mem _ ho))
    have hcs : dischargedConstraints tid pat
        (idx.attributesToDischarge r (searchSignature pat)) = [] :=
      (dischargedConstraints_nil_iff _ _ _).mpr (h _ (List.mem_cons_self _ _))
    refine ⟨!(idx.attributesToDischarge r (searchSignature pat)).isEmpty || b, ?_⟩
    simp only [indexToFilterOp, dischargeLoop_eq, hcs, leftAssocConjunction]
    simp [hb, Bind.bind, Except.bind, pure, Except.pure]

theorem removeEmpty_id (op : RamOperation)
    (h : ∀ o ∈ subOps op, nodeNonEmptyIndex o) :
    removeEmptyIndexOp op = .ok op := by
  induction op with
  | Scan r tid nested prof ih =>
    have hn := ih (fun o ho => h o (List.mem_cons_of_mem _ ho))
    simp [removeEmptyIndexOp, hn, Bind.bind, Except.bind, pure, Except.pure]
  | ParallelScan r tid nested prof ih =>
    have hn := ih (fun o ho => h o (List.mem_cons_of_mem _ ho))
    simp [removeEmptyIndexOp, hn, Bind.bind, Except.bind, pure, Except.pure]
  | Choice r tid cond nested prof ih =>
    have hn := ih (fun o ho => h o (List.mem_cons_of_mem _ ho))
    simp [removeEmptyIndexOp, hn, Bind.bind, Except.bind, pure, Except.pure]
  | Aggregate nested fn r e cond tid ih =>
    have hn := ih (fun o ho => h o (List.mem_cons_of_mem _ ho))
    simp [removeEmptyIndexOp, hn, Bind.bind, Except.bind, pure, Except.pure]
  | Filter cond nested ih =>
    have hn := ih (fun o ho => h o (List.mem_cons_of_mem _ ho))
    simp [removeEmptyIndexOp, hn, Bind.bind, Except.bind, pure, Except.pure]
  | Lookup nested rl rp ar tid ih =>
    have hn := ih (fun o ho => h o (List.mem_cons_of_mem _ ho))
    simp [removeEmptyIndexOp, hn, Bind.bind, Except.bind, pure, Except.pure]
  | Project r vs => rfl
  | SubroutineReturn vs => rfl
  | IndexScan r tid pat nested prof ih =>
    have hn := ih (fun o ho => h o (List.mem_cons_of_mem _ ho))
    have hf : foundRealIndexableOperation pat = true := h _ (List.mem_cons_self _ _)
    simp [removeEmptyIndexOp, hn, hf, Bind.bind, Except.bind, pure, Except.pure]
  | ParallelIndexScan r tid pat nested prof ih =>
    have hn := ih (fun o ho => h o (List.mem_cons_of_mem _ ho))
    have hf : foundRealIndexableOperation pat = true := h _ (List.mem_cons_self _ _)
    simp [removeEmptyIndexOp, hn, hf, Bind.bind, Except.bind, pure, Except.pure]
  | IndexChoice r tid cond pat nested prof ih =>
    have hn := ih (fun o ho => h o (List.mem_cons_of_mem _ ho))
    have hf : foundRealIndexableOperation pat = true := h _ (List.mem_cons_self _ _)
    simp [removeEmptyIndexOp, hn, hf, Bind.bind, Except.bind, pure, Except.pure]
  | IndexAggregate nested fn r e cond pat tid ih =>
    have hn := ih (fun o ho => h o (List.mem_cons_of_mem _ ho))
    have hf : foundRealIndexableOperation pat = true := h _ (List.mem_cons_self _ _)
    simp [removeEmptyIndexOp, hn, hf, Bind.bind, Except.bind, pure, Except.pure]
  | UnknownIndexOperation r tid pat nested prof ih =>
    have hn := ih (fun o ho => h o (List.mem_cons_of_mem _ ho))
    have hf : foundRealIndexableOperation pat = true := h _ (List.mem_cons_self _ _)
    rw [removeEmptyIndexOp, if_pos hf]
    simp [hn, Bind.bind, Except.bind, pure, Except.pure]

theorem indexToFilter_post (idx : IndexAnalysis) (hstable : DischargeStable idx)
    (op : RamOperation) :
    ∀ op' b, indexToFilterOp idx op = .ok (op', b)
      → ∀ o ∈ subOps op', nodeDischargeOk idx o := by
  induction op with
  | Scan r tid nested prof ih =>
    intro op' b h
    simp only [indexToFilterOp, exceptBind_ok] at h
    obtain ⟨⟨n, ch⟩, hn, hp⟩ := h
    simp only [exceptPure_ok, Prod.mk.injEq] at hp
    obtain ⟨rfl, -⟩ := hp
    intro o ho
    simp only [subOps, List.mem_cons] at ho
    rcases ho with rfl | ho
    · trivial
    · exact ih n ch hn o ho
  | ParallelScan r tid nested prof ih =>
    intro op' b h
    simp only [indexToFilterOp, exceptBind_ok] at h
    obtain ⟨⟨n, ch⟩, hn, hp⟩ := h
    simp only [exceptPure_ok, Prod.mk.injEq] at hp
    obtain ⟨rfl, -⟩ := hp
    intro o ho
    simp only [subOps, List.mem_cons] at ho
    rcases ho with rfl | ho
    · trivial
    · exact ih n ch hn o ho
  | Choice r tid cond nested prof ih =>
    intro op' b h
    simp only [indexToFilterOp, exceptBind_ok] at h
    obtain ⟨⟨n, ch⟩, hn, hp⟩ := h
    simp only [exceptPure_ok, Prod.mk.injEq] at hp
    obtain ⟨rfl, -⟩ := hp
    intro o ho
    simp only [subOps, List.mem_cons] at ho
    rcases ho with rfl | ho
    · trivial
    · exact ih n ch hn o ho
  | Aggregate nested fn r e cond tid ih =>
    intro op' b h
    simp only [indexToFilterOp, exceptBind_ok] at h
    obtain ⟨⟨n, ch⟩, hn, hp⟩ := h
    simp only [exceptPure_ok, Prod.mk.injEq] at hp
    obtain ⟨rfl, -⟩ := hp
    intro o ho
    simp only [subOps, List.mem_cons] at ho
    rcases ho with rfl | ho
    · trivial
    · exact ih n ch hn o ho
  | Filter cond nested ih =>
    intro op' b h
    simp only [indexToFilterOp, exceptBind_ok] at h
    obtain ⟨⟨n, ch⟩, hn, hp⟩ := h
    simp only [exceptPure_ok, Prod.mk.injEq] at hp
    obtain ⟨rfl, -⟩ := hp
    intro o ho
    simp only [subOps, List.mem_cons] at ho
    rcases ho with rfl | ho
    · trivial
    · exact ih n ch hn o ho
  | Lookup nested rl rp ar tid ih =>
    intro op' b h
    simp only [indexToFilterOp, exceptBind_ok] at h
    obtain ⟨⟨n, ch⟩, hn, hp⟩ := h
    simp only [exceptPure_ok, Prod.mk.injEq] at hp
    obtain ⟨rfl, -⟩ := hp
    intro o ho
    simp only [subOps, List.mem_cons] at ho
    rcases ho with rfl | ho
    · trivial
    · exact ih n ch hn o ho
  | Project r vs =>
    intro op' b h
    simp only [indexToFilterOp, exceptPure_ok, Prod.mk.injEq] at h
    obtain ⟨rfl, -⟩ := h
    intro o ho
    simp only [subOps, List.mem_cons, List.not_mem_nil, or_false] at ho
    subst ho
    trivial
  | SubroutineReturn vs =>
    intro op' b h
    simp only [indexToFilterOp, exceptPure_ok, Prod.mk.injEq] at h
    obtain ⟨rfl, -⟩ := h
    intro o ho
    simp only [subOps, List.mem_cons, List.not_mem_nil, or_false] at ho
    subst ho
    trivial
  | IndexScan r tid pat nested prof ih =>
    intro op' b h
    cases hlc : leftAssocConjunction (dischargedConstraints tid pat
        (idx.attributesToDischarge r (searchSignature pat))) with
    | some c =>
      simp only [indexToFilterOp, dischargeLoop_eq, hlc, exceptBind_ok] at h
      obtain ⟨⟨n, ch⟩, hn, hp⟩ := h
      simp only [exceptPure_ok, Prod.mk.injEq] at hp
      obtain ⟨rfl, -⟩ := hp
      intro o ho
      simp only [subOps, List.mem_cons] at ho
      rcases ho with rfl | rfl | ho
      · intro i hi
        rw [searchSignature_reset_discharge, hstable] at hi
        exact absurd hi (List.not_mem_nil i)
      · trivial
      · exact ih n ch hn o ho
    | none =>
      simp only [indexToFilterOp, dischargeLoop_eq, hlc, exceptBind_ok] at h
      obtain ⟨⟨n, ch⟩, hn, hp⟩ := h
      simp only [exceptPure_ok, Prod.mk.injEq] at hp
      obtain ⟨rfl, -⟩ := hp
      intro o ho
      simp only [subOps, List.mem_cons] at ho
      rcases ho with rfl | ho
      · exact (dischargedConstraints_nil_iff _ _ _).mp
          (leftAssocConjunction_eq_none.mp hlc)
      · exact ih n ch hn o ho
  | ParallelIndexScan r tid pat nested prof ih =>
    intro op' b h
    cases hlc : leftAssocConjunction (dischargedConstraints tid pat
        (idx.attributesToDischarge r (searchSignature pat))) with
    | some c =>
      simp only [indexToFilterOp, dischargeLoop_eq, hlc, exceptBind_ok] at h
      obtain ⟨⟨n, ch⟩, hn, hp⟩ := h
      simp only [exceptPure_ok, Prod.mk.injEq] at hp
      obtain ⟨rfl, -⟩ := hp
      intro o ho
      simp only [subOps, List.mem_cons] at ho
      rcases ho with rfl | rfl | ho
      · intro i hi
        rw [searchSignature_reset_discharge, hstable] at hi
        exact absurd hi (List.not_mem_nil i)
      · trivial
      · exact ih n ch hn o ho
    | none =>
      simp only [indexToFilterOp, dischargeLoop_eq, hlc, exceptBind_ok] at h
      obtain ⟨⟨n, ch⟩, hn, hp⟩ := h
      simp only [exceptPure_ok, Prod.mk.injEq] at hp
      obtain ⟨rfl, -⟩ := hp
      intro o ho
      simp only [subOps, List.mem_cons] at ho
      rcases ho with rfl | ho
      · exact (dischargedConstraints_nil_iff _ _ _).mp
          (leftAssocConjunction_eq_none.mp hlc)
      · exact ih n ch hn o ho
  | IndexChoice r tid cond pat nested prof ih =>
    intro op' b h
    cases hlc : leftAssocConjunction (dischargedConstraints tid pat
        (idx.attributesToDischarge r (searchSignature pat))) with
    | some c =>
      simp only [indexToFilterOp, dischargeLoop_eq, hlc, exceptBind_ok] at h
      obtain ⟨⟨n, ch⟩, hn, hp⟩ := h
      simp only [exceptPure_ok, Prod.mk.injEq] at hp
      obtain ⟨rfl, -⟩ := hp
      intro o ho
      simp only [subOps, List.mem_cons] at ho
      rcases ho with rfl | rfl | ho
      · intro i hi
        rw [searchSignature_reset_discharge, hstable] at hi
        exact absurd hi (List.not_mem_nil i)
      · trivial
      · exact ih n ch hn o ho
    | none =>
      simp only [indexToFilterOp, dischargeLoop_eq, hlc, exceptBind_ok] at h
      obtain ⟨⟨n, ch⟩, hn, hp⟩ := h
      simp only [exceptPure_ok, Prod.mk.injEq] at hp
      obtain ⟨rfl, -⟩ := hp
      intro o ho
      simp only [subOps, List.mem_cons] at ho
      rcases ho with rfl | ho
      · exact (dischargedConstraints_nil_iff _ _ _).mp
          (leftAssocConjunction_eq_none.mp hlc)
      · exact ih n ch hn o ho
  | IndexAggregate nested fn r e cond pat tid ih =>
    intro op' b h
    cases hlc : leftAssocConjunction (dischargedConstraints tid pat
        (idx.attributesToDischarge r (searchSignature pat))) with
    | some c =>
      simp only [indexToFilterOp, dischargeLoop_eq, hlc, exceptBind_ok] at h
      obtain ⟨⟨n, ch⟩, hn, hp⟩ := h
      simp only [exceptPure_ok, Prod.mk.injEq] at hp
      obtain ⟨rfl, -⟩ := hp
      intro o ho
      simp only [subOps, List.mem_cons] at ho
      rcases ho with rfl | ho
      · intro i hi
        rw [searchSignature_reset_discharge, hstable] at hi
        exact absurd hi (List.not_mem_nil i)
      · exact ih n ch hn o ho
    | none =>
      simp only [indexToFilterOp, dischargeLoop_eq, hlc, exceptBind_ok] at h
      obtain ⟨⟨n, ch⟩, hn, hp⟩ := h
      simp only [exceptPure_ok, Prod.mk.injEq] at hp
      obtain ⟨rfl, -⟩ := hp
      intro o ho
      simp only [subOps, List.mem_cons] at ho
      rcases ho with rfl | ho
      · exact (dischargedConstraints_nil_iff _ _ _).mp
          (leftAssocConjunction_eq_none.mp hlc)
      · exact ih n ch hn o ho
  | UnknownIndexOperation r tid pat nested prof ih =>
    intro op' b h
    cases hlc : leftAssocConjunction (dischargedConstraints tid pat
        (idx.attributesToDischarge r (searchSignature pat))) with
    | some c =>
      simp only [indexToFilterOp, dischargeLoop_eq, hlc] at h
      exact absurd h (by simp)
    | none =>
      simp only [indexToFilterOp, dischargeLoop_eq, hlc, exceptBind_ok] at h
      obtain ⟨⟨n, ch⟩, hn, hp⟩ := h
      simp only [exceptPure_ok, Prod.mk.injEq] at hp
      obtain ⟨rfl, -⟩ := hp
      intro o ho
      simp only [subOps, List.mem_cons] at ho
      rcases ho with rfl | ho
      · exact (dischargedConstraints_nil_iff _ _ _).mp
          (leftAssocConjunction_eq_none.mp hlc)
      · exact ih n ch hn o ho

theorem removeEmpty_preserves_dischargeOk (idx : IndexAnalysis) (op : RamOperation) :
    ∀ op', removeEmptyIndexOp op = .ok op'
      → (∀ o ∈ subOps op, nodeDischargeOk idx o)
      → ∀ o ∈ subOps op', nodeDischargeOk idx o := by
  induction op with
  | Scan r tid nested prof ih =>
    intro op' h hok
    simp only [removeEmptyIndexOp, exceptBind_ok, exceptPure_ok] at h
    obtain ⟨n, hn, rfl⟩ := h
    intro o ho
    simp only [subOps, List.mem_cons] at ho
    rcases ho with rfl | ho
    · trivial
    · exact ih n hn (fun o ho => hok o (List.mem_cons_of_mem _ ho)) o ho
  | ParallelScan r tid nested prof ih =>
    intro op' h hok
    simp only [removeEmptyIndexOp, exceptBind_ok, exceptPure_ok] at h
    obtain ⟨n, hn, rfl⟩ := h
    intro o ho
    simp only [subOps, List.mem_cons] at ho
    rcases ho with rfl | ho
    · trivial
    · exact ih n hn (fun o ho => hok o (List.mem_cons_of_mem _ ho)) o ho
  | Choice r tid cond nested prof ih =>
    intro op' h hok
    simp only [removeEmptyIndexOp, exceptBind_ok, exceptPure_ok] at h
    obtain ⟨n, hn, rfl⟩ := h
    intro o ho
    simp only [subOps, List.mem_cons] at ho
    rcases ho with rfl | ho
    · trivial
    · exact ih n hn (fun o ho => hok o (List.mem_cons_of_mem _ ho)) o ho
  | Aggregate nested fn r e cond tid ih =>
    intro op' h hok
    simp only [removeEmptyIndexOp, exceptBind_ok, exceptPure_ok] at h
    obtain ⟨n, hn, rfl⟩ := h
    intro o ho
    simp only [subOps, List.mem_cons] at ho
    rcases ho with rfl | ho
    · trivial
    · exact ih n hn (fun o ho => hok o (List.mem_cons_of_mem _ ho)) o ho
  | Filter cond nested ih =>
    intro op' h hok
    simp only [removeEmptyIndexOp, exceptBind_ok, exceptPure_ok] at h
    obtain ⟨n, hn, rfl⟩ := h
    intro o ho
    simp only [subOps, List.mem_cons] at ho
    rcases ho with rfl | ho
    · trivial
    · exact ih n hn (fun o ho => hok o (List.mem_cons_of_mem _ ho)) o ho
  | Lookup nested rl rp ar tid ih =>
    intro op' h hok
    simp only [removeEmptyIndexOp, exceptBind_ok, exceptPure_ok] at h
    obtain ⟨n, hn, rfl⟩ := h
    intro o ho
    simp only [subOps, List.mem_cons] at ho
    rcases ho with rfl | ho
    · trivial
    · exact ih n hn (fun o ho => hok o (List.mem_cons_of_mem _ ho)) o ho
  | Project r vs =>
    intro op' h hok
    rw [removeEmptyIndexOp, exceptPure_ok] at h
    subst h
    exact hok
  | SubroutineReturn vs =>
    intro op' h hok
    rw [removeEmptyIndexOp, exceptPure_ok] at h
    subst h
    exact hok
  | IndexScan r tid pat nested prof ih =>
    intro op' h hok
    simp only [removeEmptyIndexOp, exceptBind_ok] at h
    obtain ⟨n, hn, hif⟩ := h
    by_cases hf : foundRealIndexableOperation pat = true
    · rw [if_pos hf, exceptPure_ok] at hif
      subst hif
      intro o ho
      simp only [subOps, List.mem_cons] at ho
      rcases ho with rfl | ho
      · exact hok (.IndexScan r tid pat nested prof) (by simp [subOps])
      · exact ih n hn (fun o ho => hok o (List.mem_cons_of_mem _ ho)) o ho
    · rw [if_neg hf, exceptPure_ok] at hif
      subst hif
      intro o ho
      simp only [subOps, List.mem_cons] at ho
      rcases ho with rfl | ho
      · trivial
      · exact ih n hn (fun o ho => hok o (List.mem_cons_of_mem _ ho)) o ho
  | ParallelIndexScan r tid pat nested prof ih =>
    intro op' h hok
    simp only [removeEmptyIndexOp, exceptBind_ok] at h
    obtain ⟨n, hn, hif⟩ := h
    by_cases hf : foundRealIndexableOperation pat = true
    · rw [if_pos hf, exceptPure_ok] at hif
      subst hif
      intro o ho
      simp only [subOps, List.mem_cons] at ho
      rcases ho with rfl | ho
      · exact hok (.ParallelIndexScan r tid pat nested prof) (by simp [subOps])
      · exact ih n hn (fun o ho => hok o (List.mem_cons_of_mem _ ho)) o ho
    · rw [if_neg hf, exceptPure_ok] at hif
      subst hif
      intro o ho
      simp only [subOps, List.mem_cons] at ho
      rcases ho with rfl | ho
      · trivial
      · exact ih n hn (fun o ho => hok o (List.mem_cons_of_mem _ ho)) o ho
  | IndexChoice r tid cond pat nested prof ih =>
    intro op' h hok
    simp only [removeEmptyIndexOp, exceptBind_ok] at h
    obtain ⟨n, hn, hif⟩ := h
    by_cases hf : foundRealIndexableOperation pat = true
    · rw [if_pos hf, exceptPure_ok] at hif
      subst hif
      intro o ho
      simp only [subOps, List.mem_cons] at ho
      rcases ho with rfl | ho
      · exact hok (.IndexChoice r tid cond pat nested prof) (by simp [subOps])
      · exact ih n hn (fun o ho => hok o (List.mem_cons_of_mem _ ho)) o ho
    · rw [if_neg hf, exceptPure_ok] at hif
      subst hif
      intro o ho
      simp only [subOps, List.mem_cons] at ho
      rcases ho with rfl | ho
      · trivial
      · exact ih n hn (fun o ho => hok o (List.mem_cons_of_mem _ ho)) o ho
  | IndexAggregate nested fn r e cond pat tid ih =>
    intro op' h hok
    simp only [removeEmptyIndexOp, exceptBind_ok] at h
    obtain ⟨n, hn, hif⟩ := h
    by_cases hf : foundRealIndexableOperation pat = true
    · rw [if_pos hf, exceptPure_ok] at hif
      subst hif
      intro o ho
      simp only [subOps, List.mem_cons] at ho
      rcases ho with rfl | ho
      · exact hok (.IndexAggregate nested fn r e cond pat tid) (by simp [subOps])
      · exact ih n hn (fun o ho => hok o (List.mem_cons_of_mem _ ho)) o ho
    · rw [if_neg hf, exceptPure_ok] at hif
      subst hif
      intro o ho
      simp only [subOps, List.mem_cons] at ho
      rcases ho with rfl | ho
      · trivial
      · exact ih n hn (fun o ho => hok o (List.mem_cons_of_mem _ ho)) o ho
  | UnknownIndexOperation r tid pat nested prof ih =>
    intro op' h hok
    by_cases hf : foundRealIndexableOperation pat = true
    · rw [removeEmptyIndexOp, if_pos hf] at h
      simp only [exceptBind_ok, exceptPure_ok] at h
      obtain ⟨n, hn, rfl⟩ := h
      intro o ho
      simp only [subOps, List.mem_cons] at ho
      rcases ho with rfl | ho
      · exact hok (.UnknownIndexOperation r tid pat nested prof) (by simp [subOps])
      · exact ih n hn (fun o ho => hok o (List.mem_cons_of_mem _ ho)) o ho
    · rw [removeEmptyIndexOp, if_neg hf] at h
      exact absurd h (by simp)

theorem mapM_id_ok {α : Type} (f : α → Except String α) (l : List α)
    (h : ∀ x ∈ l, f x = .ok x) : l.mapM f = .ok l := by
  induction l with
  | nil => rfl
  | cons x xs ih =>
    rw [List.mapM_cons, h x (List.mem_cons_self _ _),
      ih (fun y hy => h y (List.mem_cons_of_mem _ hy))]
    rfl

theorem mapM_pair_ok {α : Type} (f : α → Except String (α × Bool)) (g : α → Bool)
    (l : List α) (h : ∀ x ∈ l, f x = .ok (x, g x)) :
    l.mapM f = .ok (l.map fun x => (x, g x)) := by
  induction l with
  | nil => rfl
  | cons x xs ih =>
    rw [List.mapM_cons, h x (List.mem_cons_self _ _),
      ih (fun y hy => h y (List.mem_cons_of_mem _ hy))]
    rfl

/-- Claim C5: the index-to-filter transform is idempotent on the program tree —
whenever one invocation succeeds, running it again returns the very same tree (the
reported flag of the second run simply restates which operations still have
attributes to discharge).  The hypothesis on the black-box index-selection
analysis is modelled from the spec: once the attributes the chosen index cannot
cover have been discharged, a query for the narrowed signature reports nothing
left to discharge. -/
theorem transformIndexToFilter_idempotent
    (idx : IndexAnalysis) (p p' : RamProgram) (b : Bool)
    (hstable : DischargeStable idx)
    (h : transformIndexToFilter idx p = .ok (p', b)) :
    transformIndexToFilter idx p' = .ok (p', p'.any (pass1Flag idx)) := by
  simp only [transformIndexToFilter, exceptBind_ok, exceptPure_ok, Prod.mk.injEq] at h
  obtain ⟨fp, hfp, p2, hp2, rfl, rfl⟩ := h
  have hq : ∀ q ∈ p2,
      indexToFilterOp idx q = .ok (q, pass1Flag idx q)
        ∧ removeEmptyIndexOp q = .ok q := by
    intro q hqm
    obtain ⟨q1, hq1mem, hrem⟩ := mapM_ok_mem removeEmptyIndexOp _ _ hp2 q hqm
    obtain ⟨y, hymem, hyfst⟩ := List.mem_map.mp hq1mem
    obtain ⟨x, _, hx⟩ := mapM_ok_mem (indexToFilterOp idx) _ _ hfp y hymem
    have hq1ok : ∀ o ∈ subOps q1, nodeDischargeOk idx o := by
      have hpost := indexToFilter_post idx hstable x y.1 y.2 hx
      rw [hyfst] at hpost
      exact hpost
    have hqok : ∀ o ∈ subOps q, nodeDischargeOk idx o :=
      removeEmpty_preserves_dischargeOk idx q1 q hrem hq1ok
    have hqne : ∀ o ∈ subOps q, nodeNonEmptyIndex o :=
      removeEmpty_output_nonEmpty q1 q hrem
    refine ⟨?_, removeEmpty_id q hqne⟩
    obtain ⟨bq, hbq⟩ := indexToFilter_id idx q hqok
    rw [indexToFilterOp_flag idx q q bq hbq] at hbq
    exact hbq
  have hpass1 : p2.mapM (indexToFilterOp idx)
      = .ok (p2.map fun q => (q, pass1Flag idx q)) :=
    mapM_pair_ok _ _ p2 (fun q hqm => (hq q hqm).1)
  have hrem2 : p2.mapM removeEmptyIndexOp = .ok p2 :=
    mapM_id_ok _ p2 (fun q hqm => (hq q hqm).2)
  have hfst : ∀ l : List RamOperation,
      List.map (Prod.fst ∘ fun q => (q, pass1Flag idx q)) l = l := by
    intro l
    induction l with
    | nil => rfl
    | cons a l ihl => simp only [List.map_cons, ihl]; rfl
  have hsnd : ∀ l : List RamOperation,
      (List.map (fun q => (q, pass1Flag idx q)) l).any Prod.snd
        = l.any (pass1Flag idx) := by
    intro l
    induction l with
    | nil => rfl
    | cons a l ihl => simp [ihl]
  simp only [transformIndexToFilter, hpass1, Bind.bind, Except.bind, List.map_map]
  rw [hfst, hrem2]
  simp [pure, Except.pure, hsnd]

theorem transformIndexToFilter_idempotent_witness :
    transformIndexToFilter ⟨fun _ s => s⟩
        [.Scan ⟨"R", 1⟩ 0
          (.Filter (.Constraint .GE (.TupleElement 0 0) (.Number 5))
            (.Project ⟨"R", 1⟩ [])) ""]
      = .ok ([.Scan ⟨"R", 1⟩ 0
          (.Filter (.Constraint .GE (.TupleElement 0 0) (.Number 5))
            (.Project ⟨"R", 1⟩ [])) ""], false) :=
  transformIndexToFilter_idempotent ⟨fun _ s => s⟩
    [.IndexScan ⟨"R", 1⟩ 0 ([.Number 5], [.UndefValue]) (.Project ⟨"R", 1⟩ []) ""]
    [.Scan ⟨"R", 1⟩ 0
      (.Filter (.Constraint .GE (.TupleElement 0 0) (.Number 5))
        (.Project ⟨"R", 1⟩ [])) ""]
    true
    (by
      intro r s
      show s.filter (fun i => !decide (i ∈ s)) = []
      rw [List.filter_eq_nil_iff]
      intro a ha
      simp [ha])
    rfl

theorem unknown_index_variant_fatal_iff_rewrite_needed_witness :
    indexToFilterOp ⟨fun _ _ => [0]⟩
        (.UnknownIndexOperation ⟨"R", 1⟩ 0 ([.Number 3], [.UndefValue])
          (.Project ⟨"R", 1⟩ []) "")
      = .error "New RamIndexOperation subclass found but not supported while making index." :=
  (unknown_index_variant_fatal_iff_rewrite_needed ⟨fun _ _ => [0]⟩ ⟨"R", 1⟩ 0
    ([.Number 3], [.UndefValue]) (.Project ⟨"R", 1⟩ []) ""
    (.Project ⟨"R", 1⟩ []) false (.Project ⟨"R", 1⟩ []) rfl rfl).1
    (.Constraint .GE (.TupleElement 0 0) (.Number 3)) (by decide)

theorem optCondEqual_iff (a b : Option Legacy.RamCondition) :
    Legacy.optCondEqual a b = true ↔ a = b := by
  cases a <;> cases b <;> simp [Legacy.optCondEqual]

theorem optRelEqual_iff (a b : Option Legacy.RamRelationReference) :
    Legacy.optRelEqual a b = true ↔ a = b := by
  cases a <;> cases b <;> simp [Legacy.optRelEqual]

theorem equalTargets_iff (a b : List (Option Legacy.RamValue)) :
    Legacy.equalTargets a b = true ↔ a = b := by
  simp [Legacy.equalTargets]

/-- Claim C7 (code defect): RamAggregate::clone pushes the cloned defined slots
onto a query pattern the constructor already pre-sized with one null slot per
attribute of the relation, and never copies the base condition; the clone of this
aggregate over a unary relation carries the two-slot pattern `[null, 5]` instead
of `[5]` and is not deeply structurally equal to the original. -/
theorem legacy_aggregate_clone_not_structurally_equal :
    Legacy.RamOperation.clone
        (.Aggregate none (.Project none ⟨"A", 1⟩ none []) "" .SUM (.Number 7)
          ⟨"A", 1⟩ [some (.Number 5)] 0 0)
      = some (.Aggregate none (.Project none ⟨"A", 1⟩ none []) "" .SUM (.Number 7)
          ⟨"A", 1⟩ [none, some (.Number 5)] 0 0)
    ∧ (Legacy.RamOperation.Aggregate none (.Project none ⟨"A", 1⟩ none []) "" .SUM
          (.Number 7) ⟨"A", 1⟩ [none, some (.Number 5)] 0 0)
        ≠ .Aggregate none (.Project none ⟨"A", 1⟩ none []) "" .SUM (.Number 7)
          ⟨"A", 1⟩ [some (.Number 5)] 0 0 :=
  ⟨rfl, by decide⟩

/-- Claim C9 (code defect): after cloning, this aggregate's range pattern has
length 3 although its relation has arity 2 — the pre-sized null slots and the
appended clones of the defined slots accumulate, violating the pattern-length
invariant the spec states for every point of an index operation's lifetime. -/
theorem legacy_clone_breaks_pattern_arity :
    (Legacy.RamOperation.clone
        (.Aggregate none (.Project none ⟨"B", 2⟩ none []) "" .MIN (.TupleElement 0 0)
          ⟨"B", 2⟩ [none, some (.TupleElement 0 1)] 0 1)).map
        Legacy.RamOperation.patternLength
      = some 3
    ∧ Legacy.RamOperation.patternLength
        (.Aggregate none (.Project none ⟨"B", 2⟩ none []) "" .MIN (.TupleElement 0 0)
          ⟨"B", 2⟩ [none, some (.TupleElement 0 1)] 0 1) = 2 :=
  ⟨rfl, rfl⟩

/-- Claim C8 counterexample: these two record lookups differ only in their bound
tuple identifier (0 versus 1) yet the legacy equal() chain reports them equal —
RamLookup::equal compares reference position, reference level and arity but never
the tuple identifier. -/
theorem legacy_lookup_equal_ignores_identifier :
    Legacy.RamOperation.equal
        (.Lookup none (.Project none ⟨"C", 1⟩ none []) "" 0 0 2 0)
        (.Lookup none (.Project none ⟨"C", 1⟩ none []) "" 0 0 2 1) = true
    ∧ (Legacy.RamOperation.Lookup none (.Project none ⟨"C", 1⟩ none []) "" 0 0 2 0)
        ≠ .Lookup none (.Project none ⟨"C", 1⟩ none []) "" 0 0 2 1 :=
  ⟨rfl, by decide⟩

/-- Claim C8 (amended): on aggregate-free trees (an aggregate's equal() compares
the target expressions by pointer identity, so two distinct aggregate nodes never
compare equal), the legacy equal() holds iff the operations are structurally equal
up to the single component it ignores — the Lookup tuple identifier; the variant
tag, conditions, relation references, relation-search identifiers, profile text,
patterns, keys, projection values and nested subtrees are all compared
recursively. -/
theorem legacy_equal_iff_up_to_lookup_identifier (x : Legacy.RamOperation) :
    ∀ y, Legacy.aggregateFree x = true → Legacy.aggregateFree y = true →
      (Legacy.RamOperation.equal x y = true
        ↔ Legacy.eraseLookupIdent x = Legacy.eraseLookupIdent y) := by
  induction x with
  | Scan c1 r1 i1 n1 p1 ih =>
    intro y hx hy
    simp only [Legacy.aggregateFree] at hx
    cases y with
    | Scan c2 r2 i2 n2 p2 =>
      simp only [Legacy.aggregateFree] at hy
      simp only [Legacy.RamOperation.equal, Legacy.eraseLookupIdent,
        Bool.and_eq_true, decide_eq_true_eq, optCondEqual_iff,
        Legacy.RamOperation.Scan.injEq]
      rw [ih n2 hx hy]
      tauto
    | IndexScan c2 r2 i2 n2 p2 q2 k2 =>
      simp [Legacy.RamOperation.equal, Legacy.eraseLookupIdent]
    | Lookup c2 n2 p2 rl2 rp2 ar2 i2 =>
      simp [Legacy.RamOperation.equal, Legacy.eraseLookupIdent]
    | Aggregate c2 n2 p2 fn2 v2 r2 q2 k2 i2 =>
      simp [Legacy.aggregateFree] at hy
    | Project c2 r2 f2 v2 =>
      simp [Legacy.RamOperation.equal, Legacy.eraseLookupIdent]
  | IndexScan c1 r1 i1 n1 p1 q1 k1 ih =>
    intro y hx hy
    simp only [Legacy.aggregateFree] at hx
    cases y with
    | Scan c2 r2 i2 n2 p2 =>
      simp [Legacy.RamOperation.equal, Legacy.eraseLookupIdent]
    | IndexScan c2 r2 i2 n2 p2 q2 k2 =>
      simp only [Legacy.aggregateFree] at hy
      simp only [Legacy.RamOperation.equal, Legacy.eraseLookupIdent,
        Bool.and_eq_true, decide_eq_true_eq, optCondEqual_iff, equalTargets_iff,
        Legacy.RamOperation.IndexScan.injEq]
      rw [ih n2 hx hy]
      tauto
    | Lookup c2 n2 p2 rl2 rp2 ar2 i2 =>
      simp [Legacy.RamOperation.equal, Legacy.eraseLookupIdent]
    | Aggregate c2 n2 p2 fn2 v2 r2 q2 k2 i2 =>
      simp [Legacy.aggregateFree] at hy
    | Project c2 r2 f2 v2 =>
      simp [Legacy.RamOperation.equal, Legacy.eraseLookupIdent]
  | Lookup c1 n1 p1 rl1 rp1 ar1 i1 ih =>
    intro y hx hy
    simp only [Legacy.aggregateFree] at hx
    cases y with
    | Scan c2 r2 i2 n2 p2 =>
      simp [Legacy.RamOperation.equal, Legacy.eraseLookupIdent]
    | IndexScan c2 r2 i2 n2 p2 q2 k2 =>
      simp [Legacy.RamOperation.equal, Legacy.eraseLookupIdent]
    | Lookup c2 n2 p2 rl2 rp2 ar2 i2 =>
      simp only [Legacy.aggregateFree] at hy
      simp only [Legacy.RamOperation.equal, Legacy.eraseLookupIdent,
        Bool.and_eq_true, decide_eq_true_eq, optCondEqual_iff,
        Legacy.RamOperation.Lookup.injEq]
      rw [ih n2 hx hy]
      tauto
    | Aggregate c2 n2 p2 fn2 v2 r2 q2 k2 i2 =>
      simp [Legacy.aggregateFree] at hy
    | Project c2 r2 f2 v2 =>
      simp [Legacy.RamOperation.equal, Legacy.eraseLookupIdent]
  | Aggregate c1 n1 p1 fn1 v1 r1 q1 k1 i1 ih =>
    intro y hx hy
    simp [Legacy.aggregateFree] at hx
  | Project c1 r1 f1 v1 =>
    intro y hx hy
    cases y with
    | Scan c2 r2 i2 n2 p2 =>
      simp [Legacy.RamOperation.equal, Legacy.eraseLookupIdent]
    | IndexScan c2 r2 i2 n2 p2 q2 k2 =>
      simp [Legacy.RamOperation.equal, Legacy.eraseLookupIdent]
    | Lookup c2 n2 p2 rl2 rp2 ar2 i2 =>
      simp [Legacy.RamOperation.equal, Legacy.eraseLookupIdent]
    | Aggregate c2 n2 p2 fn2 v2 r2 q2 k2 i2 =>
      simp [Legacy.aggregateFree] at hy
    | Project c2 r2 f2 v2 =>
      simp only [Legacy.RamOperation.equal, Legacy.eraseLookupIdent,
        Bool.and_eq_true, decide_eq_true_eq, optCondEqual_iff, optRelEqual_iff,
        Legacy.RamOperation.Project.injEq]
      tauto

theorem legacy_equal_iff_up_to_lookup_identifier_witness :
    Legacy.RamOperation.equal
        (.Lookup none (.Project none ⟨"C", 1⟩ none []) "" 0 0 2 3)
        (.Lookup none (.Project none ⟨"C", 1⟩ none []) "" 0 0 2 4) = true
      ↔ Legacy.eraseLookupIdent
          (.Lookup none (.Project none ⟨"C", 1⟩ none []) "" 0 0 2 3)
        = Legacy.eraseLookupIdent
          (.Lookup none (.Project none ⟨"C", 1⟩ none []) "" 0 0 2 4) :=
  legacy_equal_iff_up_to_lookup_identifier
    (.Lookup none (.Project none ⟨"C", 1⟩ none []) "" 0 0 2 3)
    (.Lookup none (.Project none ⟨"C", 1⟩ none []) "" 0 0 2 4)
    (by decide) (by decide)

end Souffle
